import Mathlib

/-!
Verification development for a grid-world MAPF core: a space-time A* low-level
search with vertex/edge reservations and per-agent constraints
(`prioritized_planning.py`), a prioritized planner, a Conflict-Based Search
high-level loop with conflict detection (`cbs.py`), and greedy task allocation
(`task_allocation.py`).  Python dictionaries are modelled as insertion-ordered
association lists, Python's `heapq` as a "pop the minimum of a list" operation
(faithful because all queue keys are totally ordered tuples), `random.shuffle`
as an explicit function parameter, and the wall-clock timeout test of CBS as a
boolean oracle indexed by the loop iteration.  Unbounded `while` loops are
given fuel; the fuel is irrelevant for every soundness statement (they hold
for every fuel) and is chosen large enough for all concrete evaluations.
-/

namespace MAPF

/-- Position `(x, y)`; Python uses int tuples. -/
abbrev Pos : Type := Int × Int

/-- Search node `(x, y, t)` of the space-time A*. -/
abbrev Node : Type := Int × Int × Nat

/-- A path is a time-indexed list of positions. -/
abbrev Path : Type := List Pos

/-- Occupancy grid, indexed `grid[y][x]`, `0` free / `1` obstacle. -/
abbrev Grid : Type := List (List Nat)

/-- Insertion-ordered association-list model of a Python dict: lookup. -/
def dlookup {κ β : Type} [DecidableEq κ] : List (κ × β) → κ → Option β
  | [], _ => none
  | (k, v) :: rest, key => if k = key then some v else dlookup rest key

/-- Python dict assignment `d[k] = v`: replaces in place, appends new keys at
the end (Python dicts preserve insertion order). -/
def dinsert {κ β : Type} [DecidableEq κ] : List (κ × β) → κ → β → List (κ × β)
  | [], key, val => [(key, val)]
  | (k, v) :: rest, key, val =>
    if k = key then (key, val) :: rest else (k, v) :: dinsert rest key val

/-- `d.setdefault(t, set()).add(x)`: time-keyed bucket of reservations.
Python's set is modelled as a list; only membership is ever observed. -/
def bucketAdd {β : Type} [DecidableEq β] (d : List (Nat × List β)) (t : Nat) (x : β) :
    List (Nat × List β) :=
  dinsert d t (x :: ((dlookup d t).getD []))

/-- `t in d and x in d[t]`. -/
def bucketHas {β : Type} [DecidableEq β] (d : List (Nat × List β)) (t : Nat) (x : β) : Bool :=
  match dlookup d t with
  | some l => decide (x ∈ l)
  | none => false

/-- Time-keyed vertex reservations / constraints: `time -> set of positions`. -/
abbrev RVert : Type := List (Nat × List Pos)

/-- Time-keyed edge reservations: `time -> set of (u, v) transitions`. -/
abbrev REdge : Type := List (Nat × List (Pos × Pos))

/-- `heuristic` of `prioritized_planning.py`: manhattan distance. -/
def heuristic (a b : Pos) : Nat := (a.1 - b.1).natAbs + (a.2 - b.2).natAbs

/-- `in_bounds` of `prioritized_planning.py`. -/
def in_bounds (p : Pos) (width height : Nat) : Bool :=
  decide (0 ≤ p.1 ∧ p.1 < (width : Int) ∧ 0 ≤ p.2 ∧ p.2 < (height : Int))

/-- `is_free` of `prioritized_planning.py`: `grid[y][x] == 0`.  Out-of-range
indices default to an obstacle; the function is only ever applied after an
`in_bounds` test, so the default is unreachable there (Python would raise or
wrap on a negative index). -/
def is_free (grid : Grid) (p : Pos) : Bool :=
  decide ((grid.getD p.2.toNat []).getD p.1.toNat 1 = 0)

/-- `MOVES`: 4-connected moves plus wait, in source order. -/
def MOVES : List (Int × Int) := [(0, 1), (0, -1), (1, 0), (-1, 0), (0, 0)]

/-- Open-list entry `(f, g, node)` of the space-time A*. -/
abbrev Entry : Type := Nat × Nat × Node

/-- Lexicographic order on `(x, y, t)` node tuples, as Python compares them. -/
def nodeLe (n m : Node) : Bool :=
  decide (n.1 < m.1 ∨ (n.1 = m.1 ∧ (n.2.1 < m.2.1 ∨ (n.2.1 = m.2.1 ∧ n.2.2 ≤ m.2.2))))

/-- Lexicographic order on `(f, g, node)` entries, as Python compares the
tuples pushed on the `heapq` open list. -/
def entryLe (e f : Entry) : Bool :=
  decide (e.1 < f.1) ||
    (decide (e.1 = f.1) &&
      (decide (e.2.1 < f.2.1) || (decide (e.2.1 = f.2.1) && nodeLe e.2.2 f.2.2)))

/-- `heapq.heappop` modelled on a plain list: remove a least element under
`le` (the leftmost one among ties; ties are only ever identical tuples, so the
choice is immaterial).  `heapq` always pops a minimum of the totally ordered
keys, which is exactly this. -/
def heappop {α : Type} (le : α → α → Bool) : List α → Option (α × List α)
  | [] => none
  | a :: rest =>
    match heappop le rest with
    | none => some (a, [])
    | some (m, rest') => if le a m then some (a, rest) else some (m, a :: rest')

/-- Mutable state of the A* main loop: open list, `came_from`, `gscore`. -/
structure AState where
  openl : List Entry
  cameFrom : List (Node × Node)
  gscore : List (Node × Nat)

/-- The guard chain applied to a candidate move `u -> v` arriving at time
`nt` in `a_star_with_reservations` (bounds, passability, CBS constraints,
vertex reservation, and the opposing-edge reservation test), in source
order.  `constraints and nt in constraints and ...` is modelled by the
non-emptiness test on the constraints dict. -/
def moveAllowed (grid : Grid) (cons : RVert) (rv : RVert) (re : REdge)
    (u v : Pos) (nt : Nat) : Bool :=
  in_bounds v (grid.headD []).length grid.length &&
    is_free grid v &&
    !(decide (cons ≠ []) && bucketHas cons nt v) &&
    !(bucketHas rv nt v) &&
    !(bucketHas re nt (v, u))

/-- One candidate move of the expansion of a popped node: run the guard
chain, and on a strict `gscore` improvement push the neighbour and record the
back-pointer, exactly as the Python loop body does. -/
def expandOne (grid : Grid) (cons : RVert) (rv : RVert) (re : REdge) (goal : Pos)
    (node : Node) (mv : Int × Int) (st : AState) : AState :=
  let nx := node.1 + mv.1
  let ny := node.2.1 + mv.2
  let nt := node.2.2 + 1
  if moveAllowed grid cons rv re (node.1, node.2.1) (nx, ny) nt then
    let neigh : Node := (nx, ny, nt)
    let tg := ((dlookup st.gscore node).getD 0) + 1
    if tg < ((dlookup st.gscore neigh).getD 1000000000) then
      { openl := (tg + heuristic (nx, ny) goal, tg, neigh) :: st.openl,
        cameFrom := dinsert st.cameFrom neigh node,
        gscore := dinsert st.gscore neigh tg }
    else st
  else st

/-- Neighbour expansion of one popped node over the list of moves. -/
def expandMoves (grid : Grid) (cons : RVert) (rv : RVert) (re : REdge) (goal : Pos)
    (node : Node) : List (Int × Int) → AState → AState
  | [], st => st
  | mv :: ms, st =>
    expandMoves grid cons rv re goal node ms (expandOne grid cons rv re goal node mv st)

/-- One step of the Python back-pointer walk `while cur in came_from`.  The
fuel equals the node's time coordinate when called from `reconstruct`; under
the `came_from` invariants of the search (each link decreases the time
coordinate by one, and time-0 nodes are never keys) this is exactly the
number of loop iterations Python performs. -/
def reconAux (cf : List (Node × Node)) : Nat → Node → List Pos
  | 0, _ => []
  | fuel + 1, cur =>
    match dlookup cf cur with
    | none => []
    | some prev => (cur.1, cur.2.1) :: reconAux cf fuel prev

/-- Path reconstruction of `a_star_with_reservations`: collect positions along
the back-pointers, append the start, reverse. -/
def reconstruct (cf : List (Node × Node)) (s : Pos) (node : Node) : Path :=
  ((reconAux cf node.2.2 node) ++ [s]).reverse

/-- The `while openpq` loop of `a_star_with_reservations`, with fuel.  A fuel
of `0` stands for a search that was not allowed to finish; every soundness
statement below is proved for all fuels. -/
def aStarLoop (grid : Grid) (s goal : Pos) (rv : RVert) (re : REdge) (cons : RVert)
    (maxT : Nat) : Nat → AState → Option Path
  | 0, _ => none
  | fuel + 1, st =>
    match heappop entryLe st.openl with
    | none => none
    | some (e, rest) =>
      let node := e.2.2
      if (node.1, node.2.1) = goal then some (reconstruct st.cameFrom s node)
      else if maxT ≤ node.2.2 then
        aStarLoop grid s goal rv re cons maxT fuel { st with openl := rest }
      else
        aStarLoop grid s goal rv re cons maxT fuel
          (expandMoves grid cons rv re goal node MOVES { st with openl := rest })

/-- Fuel bound for the A* loop, ample for every concrete instance evaluated
in this development. -/
def astarFuel : Nat := 300

/-- `a_star_with_reservations` of `prioritized_planning.py`.  `constraints =
None` is passed as the empty dict (observationally identical, because the
code guards every constraints lookup with truthiness of the dict). -/
def a_star_with_reservations (grid : Grid) (s goal : Pos) (rv : RVert) (re : REdge)
    (cons : RVert) (maxT : Nat) : Option Path :=
  aStarLoop grid s goal rv re cons maxT astarFuel
    { openl := [(heuristic s goal, 0, (s.1, s.2, 0))],
      cameFrom := [],
      gscore := [((s.1, s.2, 0), 0)] }

/-- Agent specification `{"id", "start", "goal"}`. -/
structure AgentS where
  id : Nat
  start : Pos
  goal : Pos
deriving DecidableEq

/-- The ordering phase of `prioritized_planning`: stable sort by manhattan
distance, caller-supplied shuffle (modelling `random.shuffle`), or stable
sort by id.  Python's stable `list.sort` is modelled by insertion sort. -/
def orderAgents (priority : String) (shuffle : List AgentS → List AgentS)
    (agents : List AgentS) : List AgentS :=
  if priority = "distance" then
    List.insertionSort (fun a b => heuristic a.start a.goal ≤ heuristic b.start b.goal) agents
  else if priority = "random" then shuffle agents
  else List.insertionSort (fun a b => a.id ≤ b.id) agents

/-- Dummy position used for list `getD` defaults at indices that are always
in range where the code runs (Python indexes directly). -/
def dm : Pos := (0, 0)

/-- The reservation loop `for t in range(len(path))` of `prioritized_planning`:
reserve the vertex at each time, and for `t > 0` the traversed edge
`(path[t-1], path[t])` at time `t`. -/
def reserveIdx (p : Path) : List Nat → RVert × REdge → RVert × REdge
  | [], s => s
  | t :: ts, (rv, re) =>
    reserveIdx p ts
      (bucketAdd rv t (p.getD t dm),
        if 0 < t then bucketAdd re t (p.getD (t - 1) dm, p.getD t dm) else re)

/-- Body of the per-agent loop of `prioritized_planning`: plan with the
current reservations (`[start]` on failure), reserve the path, record it,
update the running maximum length. -/
def planStep (grid : Grid) (st : RVert × REdge × List (Nat × Path) × Nat) (ag : AgentS) :
    RVert × REdge × List (Nat × Path) × Nat :=
  let path :=
    match a_star_with_reservations grid ag.start ag.goal st.1 st.2.1 [] 1000 with
    | none => [ag.start]
    | some p => p
  let rvre := reserveIdx path (List.range path.length) (st.1, st.2.1)
  (rvre.1, rvre.2, dinsert st.2.2.1 ag.id path,
    if st.2.2.2 < path.length then path.length else st.2.2.2)

/-- The per-agent loop of `prioritized_planning` over an already-ordered
agent list. -/
def planLoop (grid : Grid) : List AgentS → (RVert × REdge × List (Nat × Path) × Nat) →
    RVert × REdge × List (Nat × Path) × Nat
  | [], st => st
  | ag :: rest, st => planLoop grid rest (planStep grid st ag)

/-- The pad-at-goal phase of `prioritized_planning`: every path shorter than
`maxLen` is extended with copies of its last position. -/
def padPlans (plans : List (Nat × Path)) (maxLen : Nat) : List (Nat × Path) :=
  plans.map fun pr =>
    (pr.1,
      if pr.2.length < maxLen then
        pr.2 ++ List.replicate (maxLen - pr.2.length) (pr.2.getLastD dm)
      else pr.2)

/-- `prioritized_planning` of `prioritized_planning.py`.  `shuffle` models
`random.shuffle` (used only under `priority = "random"`). -/
def prioritized_planning (grid : Grid) (agents : List AgentS) (priority : String)
    (shuffle : List AgentS → List AgentS) : List (Nat × Path) :=
  let ags := orderAgents priority shuffle agents
  let st := planLoop grid ags ([], [], [], 0)
  padPlans st.2.2.1 st.2.2.2

/-- CBS constraint: `("vertex", agent_id, pos, t)` or `("edge", agent_id, u, v, t)`
(`cbs.py`). -/
inductive Constr : Type
  | vertex (aid : Nat) (pos : Pos) (t : Nat)
  | edge (aid : Nat) (u v : Pos) (t : Nat)
deriving DecidableEq

/-- Whether a constraint is an edge constraint. -/
def Constr.isEdge : Constr → Bool
  | .edge _ _ _ _ => true
  | .vertex _ _ _ => false

/-- The `for c in all_constraints` loop of `constraints_for_agent`, threading
the growing pair of vertex- and edge-constraint dicts. -/
def cfaLoop (aid : Nat) : List Constr → RVert × REdge → RVert × REdge
  | [], acc => acc
  | c :: rest, acc =>
    match c with
    | .vertex a pos t =>
      cfaLoop aid rest (if a = aid then bucketAdd acc.1 t pos else acc.1, acc.2)
    | .edge a u v t =>
      cfaLoop aid rest (acc.1, if a = aid then bucketAdd acc.2 t (u, v) else acc.2)

/-- `constraints_for_agent` of `cbs.py`: split a constraint list into the
per-agent vertex-constraint dict and edge-constraint dict. -/
def constraints_for_agent (allConstraints : List Constr) (aid : Nat) : RVert × REdge :=
  cfaLoop aid allConstraints ([], [])

/-- `low_level_search` of `cbs.py`: run the space-time A* with empty
reservations and the agent's vertex constraints.  As in the source, the
edge-constraint dict returned by `constraints_for_agent` is not passed on. -/
def low_level_search (grid : Grid) (s goal : Pos) (aid : Nat)
    (allConstraints : List Constr) (maxT : Nat) : Option Path :=
  let vc := constraints_for_agent allConstraints aid
  a_star_with_reservations grid s goal [] [] vc.1 maxT

/-- Conflict record returned by `detect_first_conflict`. -/
inductive Conflict : Type
  | vertex (t : Nat) (a1 a2 : Nat) (pos : Pos)
  | edge (t : Nat) (a1 a2 : Nat) (u v : Pos)
deriving DecidableEq

/-- `p[t] if t < len(p) else p[-1]`: position of a path at a time, sticking at
the last position past the end.  (Python raises on an empty path; the
theorems below assume every path non-empty, as every caller guarantees.) -/
def posAt (p : Path) (t : Nat) : Pos :=
  if t < p.length then p.getD t dm else p.getLastD dm

/-- The transition source used by the edge check of `detect_first_conflict`:
`p[t-1] if 0 <= t-1 < len(p) else (p[0] if len(p) > 0 else None)`.  Note the
fallback is the FIRST position, not the last one. -/
def uAt (p : Path) (t : Nat) : Option Pos :=
  if 1 ≤ t ∧ t - 1 < p.length then some (p.getD (t - 1) dm)
  else if 0 < p.length then some (p.getD 0 dm) else none

/-- The vertex-conflict scan at one time slot: walk the paths in dict order,
building `pos -> agent_id`, and report the first revisited position. -/
def vertexScanAux (t : Nat) (posMap : List (Pos × Nat)) :
    List (Nat × Path) → Option Conflict
  | [] => none
  | (aid, p) :: rest =>
    let pos := posAt p t
    match dlookup posMap pos with
    | some a1 => some (.vertex t a1 aid pos)
    | none => vertexScanAux t (dinsert posMap pos aid) rest

/-- The inner `for j in range(i+1, ...)` swap scan of `detect_first_conflict`. -/
def findSwap (t : Nat) (a1 : Nat) (u1 : Option Pos) (v1 : Pos) :
    List (Nat × (Option Pos × Pos)) → Option Conflict
  | [] => none
  | (a2, (u2, v2)) :: rest =>
    match u1, u2 with
    | some pu1, some pu2 =>
      if pu1 = v2 ∧ v1 = pu2 ∧ pu1 ≠ v1 then some (.edge t a1 a2 pu1 v1)
      else findSwap t a1 u1 v1 rest
    | _, _ => findSwap t a1 u1 v1 rest

/-- The outer pairwise swap scan of `detect_first_conflict`. -/
def edgePairs (t : Nat) : List (Nat × (Option Pos × Pos)) → Option Conflict
  | [] => none
  | (a1, (u1, v1)) :: rest =>
    match findSwap t a1 u1 v1 rest with
    | some c => some c
    | none => edgePairs t rest

/-- One time slot of `detect_first_conflict`: vertex scan first, then the
edge (swap) scan over the per-agent transitions at that time. -/
def detectAt (paths : List (Nat × Path)) (t : Nat) : Option Conflict :=
  match vertexScanAux t [] paths with
  | some c => some c
  | none => edgePairs t (paths.map fun pr => (pr.1, (uAt pr.2 t, posAt pr.2 t)))

/-- The `for t in range(max_t)` loop of `detect_first_conflict`:
`k` counts the remaining slots. -/
def detectLoop (paths : List (Nat × Path)) : Nat → Nat → Option Conflict
  | _, 0 => none
  | t, k + 1 =>
    match detectAt paths t with
    | some c => some c
    | none => detectLoop paths (t + 1) k

/-- `detect_first_conflict` of `cbs.py`. -/
def detect_first_conflict (paths : List (Nat × Path)) : Option Conflict :=
  detectLoop paths 0 ((paths.map fun pr => pr.2.length).foldr max 0)

/-- High-level CBS tree node (`CBSNode` of `cbs.py`); the priority pair
`(cost, conflicts_count)` is recomputed at each construction site exactly as
`__post_init__`/the assignments do, so it is kept implicit here. -/
structure CBSNodeL where
  cost : Nat
  constraints : List Constr
  paths : List (Nat × Path)
  conflictsCount : Nat
deriving DecidableEq

/-- Open-list entry of the high-level search: `(priority, counter, node)`. -/
abbrev CBSEntry : Type := (Nat × Nat) × Nat × CBSNodeL

/-- Order of the high-level `heapq`: lexicographic on
`((cost, conflicts_count), counter)`; the node itself is never compared
because counters are unique. -/
def cbsEntryLe (e f : CBSEntry) : Bool :=
  decide (e.1.1 < f.1.1) ||
    (decide (e.1.1 = f.1.1) &&
      (decide (e.1.2 < f.1.2) ||
        (decide (e.1.2 = f.1.2) && decide (e.2.1 ≤ f.2.1))))

/-- Sum-of-costs of a path map: `sum(len(p) for p in paths.values())`. -/
def socOf (paths : List (Nat × Path)) : Nat :=
  (paths.map fun pr => pr.2.length).foldr (· + ·) 0

/-- `next(a for a in agents if a["id"] == aid)`; the default is unreachable
because conflicts only mention ids of planned agents. -/
def findAgent (agents : List AgentS) (aid : Nat) : AgentS :=
  (agents.find? fun a => a.id = aid).getD ⟨0, dm, dm⟩

/-- Build one child of a vertex split: append the vertex constraint for
`aid`, enforce `max_constraints_per_agent` on vertex constraints of `aid`,
replan that agent, give up (`none`) if the bound or the replan fails. -/
def mkVertexChild (grid : Grid) (agents : List AgentS) (maxCons : Nat)
    (node : CBSNodeL) (aid : Nat) (pos : Pos) (t : Nat) : Option CBSNodeL :=
  let cs := node.constraints ++ [Constr.vertex aid pos t]
  let cnt := cs.countP fun c =>
    match c with
    | .vertex a _ _ => a = aid
    | .edge _ _ _ _ => False
  if cnt ≤ maxCons then
    let ag := findAgent agents aid
    match low_level_search grid ag.start ag.goal aid cs 1000 with
    | none => none
    | some p =>
      let newPaths := dinsert node.paths aid p
      some ⟨socOf newPaths, cs, newPaths, 0⟩
  else none

/-- Build one child of an edge split (the constrained transition is
`u -> v` arriving at `t` for the given agent). -/
def mkEdgeChild (grid : Grid) (agents : List AgentS) (maxCons : Nat)
    (node : CBSNodeL) (aid : Nat) (u v : Pos) (t : Nat) : Option CBSNodeL :=
  let cs := node.constraints ++ [Constr.edge aid u v t]
  let cnt := cs.countP fun c =>
    match c with
    | .vertex _ _ _ => False
    | .edge a _ _ _ => a = aid
  if cnt ≤ maxCons then
    let ag := findAgent agents aid
    match low_level_search grid ag.start ag.goal aid cs 1000 with
    | none => none
    | some p =>
      let newPaths := dinsert node.paths aid p
      some ⟨socOf newPaths, cs, newPaths, 0⟩
  else none

/-- Push an optional child on the high-level open list, consuming a counter
value exactly when a push happens. -/
def pushChild (openl : List CBSEntry) (counter : Nat) :
    Option CBSNodeL → List CBSEntry × Nat
  | none => (openl, counter)
  | some n => (((n.cost, n.conflictsCount), counter, n) :: openl, counter + 1)

/-- Why the high-level loop returned. -/
inductive CBSReason : Type
  | solved
  | timeout
  | nodeLimit
  | exhausted
  | rootFail
deriving DecidableEq

/-- `open_list[0]`: the root of the Python heap, i.e. a minimum entry; the
default is unreachable (only read while the list is non-empty). -/
def cbsPeek (openl : List CBSEntry) : List (Nat × Path) :=
  match heappop cbsEntryLe openl with
  | some (e, _) => e.2.2.paths
  | none => []

/-- The `while open_list` loop of `cbs`, instrumented with the reason for the
value it returns (the reason tag is the only addition over the source).
`budget` is `node_limit - nodes_expanded`, the strictly decreasing measure of
the loop; `timeoutO it` models `time.time() - start_time > time_limit` at the
`it`-th iteration. -/
def cbsLoop (grid : Grid) (agents : List AgentS) (timeoutO : Nat → Bool)
    (maxCons : Nat) (fallback ppPriority : String)
    (shuffle : List AgentS → List AgentS) :
    Nat → List CBSEntry → Nat → Nat → CBSReason × List (Nat × Path)
  | budget, openl, counter, it =>
    if openl = [] then
      (CBSReason.exhausted,
        if fallback = "prioritized" then prioritized_planning grid agents ppPriority shuffle
        else if openl ≠ [] then cbsPeek openl
        else agents.map fun ag => (ag.id, [ag.start]))
    else if timeoutO it then
      (CBSReason.timeout,
        if fallback = "prioritized" then prioritized_planning grid agents ppPriority shuffle
        else cbsPeek openl)
    else
      match budget with
      | 0 =>
        (CBSReason.nodeLimit,
          if fallback = "prioritized" then prioritized_planning grid agents ppPriority shuffle
          else cbsPeek openl)
      | b + 1 =>
        match heappop cbsEntryLe openl with
        | none => (CBSReason.exhausted, agents.map fun ag => (ag.id, [ag.start]))
        | some (e, rest) =>
          let node := e.2.2
          match detect_first_conflict node.paths with
          | none => (CBSReason.solved, node.paths)
          | some (.vertex t a1 a2 pos) =>
            let c1 := mkVertexChild grid agents maxCons node a1 pos t
            let oc1 := pushChild rest counter c1
            let c2 := mkVertexChild grid agents maxCons node a2 pos t
            let oc2 := pushChild oc1.1 oc1.2 c2
            cbsLoop grid agents timeoutO maxCons fallback ppPriority shuffle
              b oc2.1 oc2.2 (it + 1)
          | some (.edge t a1 a2 u v) =>
            let c1 := mkEdgeChild grid agents maxCons node a1 u v t
            let oc1 := pushChild rest counter c1
            let c2 := mkEdgeChild grid agents maxCons node a2 v u t
            let oc2 := pushChild oc1.1 oc1.2 c2
            cbsLoop grid agents timeoutO maxCons fallback ppPriority shuffle
              b oc2.1 oc2.2 (it + 1)

/-- The root-planning loop of `cbs`: plan every agent with no constraints;
`none` signals the immediate prioritized fallback taken when some agent has
no path and `fallback = "prioritized"`; otherwise a failed agent is parked on
its start, as in the source. -/
def cbsRootLoop (grid : Grid) (fallback : String) :
    List AgentS → List (Nat × Path) → Option (List (Nat × Path))
  | [], acc => some acc
  | ag :: rest, acc =>
    match low_level_search grid ag.start ag.goal ag.id [] 1000 with
    | none =>
      if fallback = "prioritized" then none
      else cbsRootLoop grid fallback rest (dinsert acc ag.id [ag.start])
    | some p => cbsRootLoop grid fallback rest (dinsert acc ag.id p)

/-- `cbs` of `cbs.py`, returning the result together with the reason tag.
`timeoutO` models the wall-clock timeout test, `nodeLimit` is
`node_limit`, `maxCons` is `max_constraints_per_agent`, `shuffle` models
`random.shuffle` inside the prioritized fallback. -/
def cbsRun (grid : Grid) (agents : List AgentS) (timeoutO : Nat → Bool)
    (nodeLimit maxCons : Nat) (fallback ppPriority : String)
    (shuffle : List AgentS → List AgentS) : CBSReason × List (Nat × Path) :=
  match cbsRootLoop grid fallback agents [] with
  | none => (CBSReason.rootFail, prioritized_planning grid agents ppPriority shuffle)
  | some rootPaths =>
    let cost := socOf rootPaths
    let root : CBSNodeL := ⟨cost, [], rootPaths, 0⟩
    cbsLoop grid agents timeoutO maxCons fallback ppPriority shuffle
      nodeLimit [((cost, 0), 0, root)] 1 0

/-- `cbs` of `cbs.py` (the returned map). -/
def cbs (grid : Grid) (agents : List AgentS) (timeoutO : Nat → Bool)
    (nodeLimit maxCons : Nat) (fallback ppPriority : String)
    (shuffle : List AgentS → List AgentS) : List (Nat × Path) :=
  (cbsRun grid agents timeoutO nodeLimit maxCons fallback ppPriority shuffle).2

/-- Task record used by `task_allocation.py` (`task_id`, `pos`,
`completed`). -/
structure TaskS where
  task_id : Nat
  pos : Pos
  completed : Bool
deriving DecidableEq

/-- Agent view used by `task_allocation.py` (`unique_id`, `pos`). -/
structure AgentPos where
  unique_id : Nat
  pos : Pos
deriving DecidableEq

/-- `manhattan` of `task_allocation.py`. -/
def manhattan (a b : Pos) : Nat := (a.1 - b.1).natAbs + (a.2 - b.2).natAbs

/-- The inner `for t in tasks` loop of `greedy_assignment`: skip claimed or
completed tasks, keep the first strict improvement of the best distance
(`best = None` stands for an infinite best distance). -/
def selectLoop (apos : Pos) (taken : List Nat) (acc : Option (TaskS × Nat)) :
    List TaskS → Option (TaskS × Nat)
  | [] => acc
  | tk :: rest =>
    if tk.task_id ∈ taken ∨ tk.completed then selectLoop apos taken acc rest
    else
      let d := manhattan apos tk.pos
      match acc with
      | none => selectLoop apos taken (some (tk, d)) rest
      | some (bt, bd) =>
        if d < bd then selectLoop apos taken (some (tk, d)) rest
        else selectLoop apos taken (some (bt, bd)) rest

/-- The outer `for a in agents` loop of `greedy_assignment`, returning the
final `(assign, taken)` pair (the source keeps `taken` as a local set; it is
returned here so that the intermediate states can be spoken about). -/
def greedyPair (tasks : List TaskS) :
    List AgentPos → List (Nat × Nat) → List Nat → List (Nat × Nat) × List Nat
  | [], assign, taken => (assign, taken)
  | a :: rest, assign, taken =>
    match selectLoop a.pos taken none tasks with
    | some (bt, _) =>
      greedyPair tasks rest (dinsert assign a.unique_id bt.task_id) (bt.task_id :: taken)
    | none => greedyPair tasks rest assign taken

/-- `greedy_assignment` of `task_allocation.py`. -/
def greedy_assignment (agents : List AgentPos) (tasks : List TaskS) : List (Nat × Nat) :=
  (greedyPair tasks agents [] []).1

/-! ### Association-list and bucket lemmas -/

/-- The `(start[0], start[1], 0)` node. -/
def startN (s : Pos) : Node := (s.1, s.2, 0)

/-- Every `came_from` link is a checked transition one time step up. -/
def CFinv (grid : Grid) (cons : RVert) (rv : RVert) (re : REdge)
    (cf : List (Node × Node)) : Prop :=
  ∀ n m, dlookup cf n = some m →
    n.2.2 = m.2.2 + 1 ∧
      moveAllowed grid cons rv re (m.1, m.2.1) (n.1, n.2.1) n.2.2 = true

/-- Every `came_from` value is the start node or itself a key. -/
def CFVinv (s : Pos) (cf : List (Node × Node)) : Prop :=
  ∀ n m, dlookup cf n = some m → m = startN s ∨ (dlookup cf m).isSome

/-- Every open-list node is the start node or a `came_from` key. -/
def OpenInv (s : Pos) (cf : List (Node × Node)) (openl : List Entry) : Prop :=
  ∀ e ∈ openl, e.2.2 = startN s ∨ (dlookup cf e.2.2).isSome

/-- Bundled invariant of the A* loop state. -/
def StInv (grid : Grid) (cons : RVert) (rv : RVert) (re : REdge) (s : Pos)
    (st : AState) : Prop :=
  CFinv grid cons rv re st.cameFrom ∧ CFVinv s st.cameFrom ∧
    OpenInv s st.cameFrom st.openl

/-- The per-entry facts recorded for each planned path: provenance (it is the
path of some agent of the list, starting at that agent's start and ending at
its goal unless it is the `[start]` fallback), a length bound by the running
maximum, and full coverage of its vertices and edges by the reservation
tables of the state. -/
def EntryOK (ags : List AgentS) (st : RVert × REdge × List (Nat × Path) × Nat)
    (aid : Nat) (p : Path) : Prop :=
  p ≠ [] ∧
    (∃ ag ∈ ags, ag.id = aid ∧ p.head? = some ag.start ∧
      (p = [ag.start] ∨ p.getLast? = some ag.goal)) ∧
    p.length ≤ st.2.2.2 ∧
    (∀ t, t < p.length → bucketHas st.1 t (p.getD t dm) = true) ∧
    (∀ t, 1 ≤ t → t < p.length →
      bucketHas st.2.1 t (p.getD (t - 1) dm, p.getD t dm) = true)

/-- Two recorded paths never share a vertex nor swap an edge at a time that
both of them still cover. -/
def PairOK (p p' : Path) : Prop :=
  ∀ t, 1 ≤ t → t < p.length → t < p'.length →
    p.getD t dm ≠ p'.getD t dm ∧
      ¬(p.getD (t - 1) dm = p'.getD t dm ∧ p.getD t dm = p'.getD (t - 1) dm)

/-- The loop invariant of `prioritized_planning`. -/
def PlansInv (ags : List AgentS) (st : RVert × REdge × List (Nat × Path) × Nat) : Prop :=
  (∀ aid p, dlookup st.2.2.1 aid = some p → EntryOK ags st aid p) ∧
    (∀ aid p aid' p', dlookup st.2.2.1 aid = some p →
      dlookup st.2.2.1 aid' = some p' → aid ≠ aid' → PairOK p p')

/-- Every entry of an open list carries `f = g + h(pos, goal)`. -/
def fgInv (goal : Pos) (l : List Entry) : Prop :=
  ∀ e ∈ l, e.1 = e.2.1 + heuristic (e.2.2.1, e.2.2.2.1) goal

instance instAgentIdLeTotal : IsTotal AgentS (fun a b => a.id ≤ b.id) :=
  ⟨fun a b => Nat.le_total a.id b.id⟩

instance instAgentIdLeTrans : IsTrans AgentS (fun a b => a.id ≤ b.id) :=
  ⟨fun _ _ _ hab hbc => Nat.le_trans hab hbc⟩

/-- 1×3 free corridor. -/
def cwGrid : Grid := [[0, 0, 0]]

/-- Two agents on the corridor: agent 0 from (1,0) to (0,0), agent 1 from
(0,0) to (2,0); all starts and goals are in bounds, obstacle-free and
pairwise distinct. -/
def cwAgents : List AgentS := [⟨0, (1, 0), (0, 0)⟩, ⟨1, (0, 0), (2, 0)⟩]

/-- 2×3 free grid for the CBS run with conflict-free unequal-length paths. -/
def cwGrid2 : Grid := [[0, 0, 0], [0, 0, 0]]

/-- Two agents whose independent shortest paths have lengths 3 and 2 and
never conflict. -/
def cwAgents2 : List AgentS := [⟨0, (0, 0), (2, 0)⟩, ⟨1, (0, 1), (1, 1)⟩]

/-- An edge-reservation table holding only the same-direction transition
`(0,0) -> (1,0)` at time 1. -/
def c7re : REdge := bucketAdd [] 1 ((0, 0), (1, 0))

/-! ## Claim theorems -/

/-- Every node on the high-level open list maps every agent id to a path. -/
def NodesCover (agents : List AgentS) (openl : List CBSEntry) : Prop :=
  ∀ e ∈ openl, ∀ ag ∈ agents, (dlookup e.2.2.paths ag.id).isSome

/-- A task is eligible for assignment: not yet claimed and not completed. -/
def eligibleT (taken : List Nat) (tk : TaskS) : Prop :=
  tk.task_id ∉ taken ∧ tk.completed = false

instance (taken : List Nat) (tk : TaskS) : Decidable (eligibleT taken tk) := by
  unfold eligibleT
  infer_instance

/-- Position of an agent at a time under the pad-with-last-position rule. -/
def specU (p : Path) (t : Nat) : Pos := posAt p (t - 1)

/-- A swap between two paths at time `t`, read with padded positions: the
first path moves from the second's arrival cell to the second's departure
cell; waiting is excluded. -/
def specSwap (p q : Path) (t : Nat) : Prop :=
  specU p t = posAt q t ∧ posAt p t = specU q t ∧ specU p t ≠ posAt p t

/-- Some ordered pair of distinct entries shares a padded position at `t`. -/
def specVC (paths : List (Nat × Path)) (t : Nat) : Prop :=
  ∃ i : Fin paths.length, ∃ j : Fin paths.length, i < j ∧
    posAt (paths.get i).2 t = posAt (paths.get j).2 t

/-- Some ordered pair of distinct entries swaps at `t` (padded positions). -/
def specEC (paths : List (Nat × Path)) (t : Nat) : Prop :=
  ∃ i : Fin paths.length, ∃ j : Fin paths.length, i < j ∧
    specSwap (paths.get i).2 (paths.get j).2 t

instance (paths : List (Nat × Path)) (t : Nat) : Decidable (specVC paths t) := by
  unfold specVC
  infer_instance

instance (paths : List (Nat × Path)) (t : Nat) : Decidable (specEC paths t) := by
  unfold specEC specSwap
  infer_instance

/-- The failing input of the conflict-detector claim: agents 0 and 1 trade
places via disjoint detours and then park forever; agent 2 keeps walking,
stretching the scan horizon past the parked paths' ends. -/
def c5paths : List (Nat × Path) :=
  [(0, [(0, 0), (5, 0), (1, 0)]),
    (1, [(1, 0), (6, 0), (0, 0)]),
    (2, [(2, 0), (2, 1), (2, 2), (2, 3), (2, 4)])]

theorem dlookup_dinsert {κ β : Type} [DecidableEq κ] (d : List (κ × β)) (k : κ) (v : β)
    (key : κ) :
    dlookup (dinsert d k v) key = if k = key then some v else dlookup d key := by
  induction d with
  | nil => by_cases h : k = key <;> simp [dinsert, dlookup, h]
  | cons hd tl ih =>
    obtain ⟨k', v'⟩ := hd
    by_cases h1 : k' = k
    · subst h1
      by_cases h2 : k' = key <;> simp [dinsert, dlookup, h2]
    · by_cases h2 : k' = key
      · subst h2
        have : ¬ k = k' := fun h => h1 h.symm
        simp [dinsert, dlookup, h1, this]
      · simp [dinsert, dlookup, h1, h2, ih]

theorem dlookup_dinsert_self {κ β : Type} [DecidableEq κ] (d : List (κ × β)) (k : κ) (v : β) :
    dlookup (dinsert d k v) k = some v := by
  simp [dlookup_dinsert]

theorem dlookup_dinsert_ne {κ β : Type} [DecidableEq κ] (d : List (κ × β)) (k : κ) (v : β)
    (key : κ) (h : k ≠ key) : dlookup (dinsert d k v) key = dlookup d key := by
  simp [dlookup_dinsert, h]

theorem isSome_dlookup_dinsert {κ β : Type} [DecidableEq κ] (d : List (κ × β)) (k : κ) (v : β)
    (key : κ) (h : (dlookup d key).isSome) : (dlookup (dinsert d k v) key).isSome := by
  rw [dlookup_dinsert]
  by_cases hk : k = key <;> simp [hk, h]

theorem bucketHas_bucketAdd_self {β : Type} [DecidableEq β] (d : List (Nat × List β))
    (t : Nat) (x : β) : bucketHas (bucketAdd d t x) t x = true := by
  simp [bucketHas, bucketAdd, dlookup_dinsert_self]

theorem bucketHas_mono {β : Type} [DecidableEq β] (d : List (Nat × List β))
    (t t' : Nat) (x y : β) (h : bucketHas d t x = true) :
    bucketHas (bucketAdd d t' y) t x = true := by
  unfold bucketHas at h ⊢
  rcases hl : dlookup d t with _ | l
  · rw [hl] at h; simp at h
  · rw [hl] at h
    unfold bucketAdd
    by_cases ht : t' = t
    · subst ht
      rw [dlookup_dinsert_self, hl]
      simp_all
    · rw [dlookup_dinsert_ne _ _ _ _ ht, hl]
      exact h

/-! ### `heappop` lemmas -/

theorem heappop_eq_none {α : Type} (le : α → α → Bool) (l : List α) :
    heappop le l = none ↔ l = [] := by
  cases l with
  | nil => simp [heappop]
  | cons a rest =>
    simp only [heappop]
    rcases h : heappop le rest with _ | ⟨m, rest'⟩ <;> simp [h]
    by_cases hle : le a m <;> simp [hle]

theorem heappop_mem {α : Type} (le : α → α → Bool) (l : List α) (e : α) (rest : List α)
    (h : heappop le l = some (e, rest)) : e ∈ l := by
  induction l generalizing e rest with
  | nil => simp [heappop] at h
  | cons a tl ih =>
    simp only [heappop] at h
    rcases hrec : heappop le tl with _ | ⟨m, tl'⟩
    · rw [hrec] at h
      simp at h
      simp [h.1]
    · rw [hrec] at h
      by_cases hle : le a m
      · simp [hle] at h
        simp [h.1]
      · simp [hle] at h
        right
        rw [h.1] at hrec
        exact ih _ _ hrec

theorem heappop_rest_mem {α : Type} (le : α → α → Bool) (l : List α) (e : α) (rest : List α)
    (h : heappop le l = some (e, rest)) : ∀ x ∈ rest, x ∈ l := by
  induction l generalizing e rest with
  | nil => simp [heappop] at h
  | cons a tl ih =>
    simp only [heappop] at h
    rcases hrec : heappop le tl with _ | ⟨m, tl'⟩
    · rw [hrec] at h
      simp at h
      simp [h.2]
    · rw [hrec] at h
      by_cases hle : le a m
      · simp [hle] at h
        intro x hx
        rw [← h.2] at hx
        simp [hx]
      · simp [hle] at h
        intro x hx
        rw [← h.2] at hx
        rcases List.mem_cons.mp hx with hx | hx
        · simp [hx]
        · exact List.mem_cons_of_mem a (ih _ _ hrec x hx)

theorem heappop_min {α : Type} (le : α → α → Bool)
    (htot : ∀ a b, le a b = true ∨ le b a = true)
    (htrans : ∀ a b c, le a b = true → le b c = true → le a c = true)
    (l : List α) (e : α) (rest : List α)
    (h : heappop le l = some (e, rest)) : ∀ x ∈ l, le e x = true := by
  induction l generalizing e rest with
  | nil => simp [heappop] at h
  | cons a tl ih =>
    have hrefl : ∀ x : α, le x x = true := fun x => (htot x x).elim id id
    simp only [heappop] at h
    rcases hrec : heappop le tl with _ | ⟨m, tl'⟩
    · rw [hrec] at h
      simp at h
      have : tl = [] := (heappop_eq_none le tl).mp hrec
      subst this
      simp [← h.1, hrefl]
    · rw [hrec] at h
      by_cases hle : le a m
      · simp [hle] at h
        rw [← h.1]
        intro x hx
        rcases List.mem_cons.mp hx with hx | hx
        · rw [hx]; exact hrefl a
        · exact htrans a m x hle (ih m tl' hrec x hx)
      · simp [hle] at h
        rw [← h.1]
        have hma : le m a = true := (htot a m).resolve_left (by simpa using hle)
        intro x hx
        rcases List.mem_cons.mp hx with hx | hx
        · rw [hx]; exact hma
        · exact ih m tl' hrec x hx

/-! ### Totality and transitivity of the open-list orders -/

theorem entryLe_iff (e f : Entry) :
    entryLe e f = true ↔
      (e.1 < f.1 ∨ (e.1 = f.1 ∧ (e.2.1 < f.2.1 ∨ (e.2.1 = f.2.1 ∧
        (e.2.2.1 < f.2.2.1 ∨ (e.2.2.1 = f.2.2.1 ∧ (e.2.2.2.1 < f.2.2.2.1 ∨
          (e.2.2.2.1 = f.2.2.2.1 ∧ e.2.2.2.2 ≤ f.2.2.2.2)))))))) := by
  simp [entryLe, nodeLe, Bool.or_eq_true, Bool.and_eq_true, decide_eq_true_eq]

theorem entryLe_total (e f : Entry) : entryLe e f = true ∨ entryLe f e = true := by
  rw [entryLe_iff, entryLe_iff]
  omega

theorem entryLe_trans (e f g : Entry) (h1 : entryLe e f = true) (h2 : entryLe f g = true) :
    entryLe e g = true := by
  rw [entryLe_iff] at h1 h2 ⊢
  omega

theorem cbsEntryLe_iff (e f : CBSEntry) :
    cbsEntryLe e f = true ↔
      (e.1.1 < f.1.1 ∨ (e.1.1 = f.1.1 ∧ (e.1.2 < f.1.2 ∨ (e.1.2 = f.1.2 ∧
        e.2.1 ≤ f.2.1)))) := by
  simp [cbsEntryLe, Bool.or_eq_true, Bool.and_eq_true, decide_eq_true_eq]

theorem cbsEntryLe_total (e f : CBSEntry) : cbsEntryLe e f = true ∨ cbsEntryLe f e = true := by
  rw [cbsEntryLe_iff, cbsEntryLe_iff]
  omega

/-! ### Soundness of the space-time A*

The `came_from` map of the search only ever records transitions that passed
the full guard chain `moveAllowed`, each link decreasing the time coordinate
by one, and each recorded predecessor is the start node or itself a key; any
node on the open list is the start node or a key.  These invariants make the
reconstructed path start at `start`, end at the popped goal and respect every
reservation and constraint at each arrival time. -/

theorem expandOne_pres (grid : Grid) (cons : RVert) (rv : RVert) (re : REdge)
    (s goal : Pos) (node : Node) (mv : Int × Int) (st : AState)
    (hst : StInv grid cons rv re s st)
    (hnode : node = startN s ∨ (dlookup st.cameFrom node).isSome) :
    StInv grid cons rv re s (expandOne grid cons rv re goal node mv st) ∧
      (∀ k, (dlookup st.cameFrom k).isSome →
        (dlookup (expandOne grid cons rv re goal node mv st).cameFrom k).isSome) := by
  obtain ⟨hcf, hv, ho⟩ := hst
  unfold expandOne
  by_cases hmv : moveAllowed grid cons rv re (node.1, node.2.1)
      (node.1 + mv.1, node.2.1 + mv.2) (node.2.2 + 1) = true
  · rw [if_pos hmv]
    by_cases hg : ((dlookup st.gscore node).getD 0) + 1 <
        ((dlookup st.gscore (node.1 + mv.1, node.2.1 + mv.2, node.2.2 + 1)).getD 1000000000)
    · rw [if_pos hg]
      set neigh : Node := (node.1 + mv.1, node.2.1 + mv.2, node.2.2 + 1) with hneigh
      refine ⟨⟨?_, ?_, ?_⟩, ?_⟩
      · show CFinv grid cons rv re (dinsert st.cameFrom neigh node)
        intro n m hlook
        rw [dlookup_dinsert] at hlook
        by_cases hk : neigh = n
        · rw [if_pos hk] at hlook
          obtain rfl : node = m := by injection hlook
          subst hk
          exact ⟨rfl, hmv⟩
        · rw [if_neg hk] at hlook
          exact hcf n m hlook
      · show CFVinv s (dinsert st.cameFrom neigh node)
        intro n m hlook
        rw [dlookup_dinsert] at hlook
        by_cases hk : neigh = n
        · rw [if_pos hk] at hlook
          obtain rfl : node = m := by injection hlook
          rcases hnode with h1 | h1
          · exact Or.inl h1
          · exact Or.inr (isSome_dlookup_dinsert _ _ _ _ h1)
        · rw [if_neg hk] at hlook
          rcases hv n m hlook with h1 | h1
          · exact Or.inl h1
          · exact Or.inr (isSome_dlookup_dinsert _ _ _ _ h1)
      · show OpenInv s (dinsert st.cameFrom neigh node) _
        intro e he
        rcases List.mem_cons.mp he with rfl | he
        · exact Or.inr (by simp [dlookup_dinsert_self])
        · rcases ho e he with h1 | h1
          · exact Or.inl h1
          · exact Or.inr (isSome_dlookup_dinsert _ _ _ _ h1)
      · intro k hk
        exact isSome_dlookup_dinsert _ _ _ _ hk
    · rw [if_neg hg]
      exact ⟨⟨hcf, hv, ho⟩, fun k hk => hk⟩
  · rw [if_neg hmv]
    exact ⟨⟨hcf, hv, ho⟩, fun k hk => hk⟩

theorem expandMoves_pres (grid : Grid) (cons : RVert) (rv : RVert) (re : REdge)
    (s goal : Pos) (node : Node) :
    ∀ (ms : List (Int × Int)) (st : AState),
      StInv grid cons rv re s st →
      (node = startN s ∨ (dlookup st.cameFrom node).isSome) →
      StInv grid cons rv re s (expandMoves grid cons rv re goal node ms st) := by
  intro ms
  induction ms with
  | nil => intro st hst _; exact hst
  | cons mv rest ih =>
    intro st hst hnode
    obtain ⟨hst', hmono⟩ := expandOne_pres grid cons rv re s goal node mv st hst hnode
    have hnode' : node = startN s ∨
        (dlookup (expandOne grid cons rv re goal node mv st).cameFrom node).isSome := by
      rcases hnode with h1 | h1
      · exact Or.inl h1
      · exact Or.inr (hmono node h1)
    exact ih _ hst' hnode'

theorem recon_spec (grid : Grid) (cons : RVert) (rv : RVert) (re : REdge) (s : Pos)
    (cf : List (Node × Node)) (hcf : CFinv grid cons rv re cf) (hv : CFVinv s cf) :
    ∀ t (n : Node), n.2.2 = t → (n = startN s ∨ (dlookup cf n).isSome) →
      (reconstruct cf s n).length = t + 1 ∧
        (reconstruct cf s n).head? = some s ∧
        (reconstruct cf s n).getLast? = some (n.1, n.2.1) ∧
        ∀ i, i + 1 < t + 1 →
          moveAllowed grid cons rv re ((reconstruct cf s n).getD i dm)
            ((reconstruct cf s n).getD (i + 1) dm) (i + 1) = true := by
  intro t
  induction t with
  | zero =>
    intro n hn hok
    have hnone : dlookup cf n = none := by
      rcases hlook : dlookup cf n with _ | m
      · rfl
      · exact absurd (hcf n m hlook).1 (by omega)
    have hstart : n = startN s := by
      rcases hok with h | h
      · exact h
      · rw [hnone] at h; simp at h
    have hrec : reconstruct cf s n = [s] := by
      unfold reconstruct
      rw [hn]
      simp [reconAux]
    rw [hrec]
    refine ⟨rfl, rfl, ?_, ?_⟩
    · rw [hstart]; rfl
    · intro i hi; omega
  | succ t ih =>
    intro n hn hok
    rcases hlook : dlookup cf n with _ | prev
    · -- impossible: a node of positive time on the chain must be a key
      rcases hok with h | h
      · rw [h] at hn; simp [startN] at hn
      · rw [hlook] at h; simp at h
    · have hstep := hcf n prev hlook
      have hprevt : prev.2.2 = t := by omega
      have hprevok : prev = startN s ∨ (dlookup cf prev).isSome := hv n prev hlook
      obtain ⟨hlen, hhead, hlast, hsteps⟩ := ih prev hprevt hprevok
      have hunfold : reconstruct cf s n = reconstruct cf s prev ++ [(n.1, n.2.1)] := by
        unfold reconstruct
        rw [hn]
        show ((reconAux cf (t + 1) n) ++ [s]).reverse = _
        rw [show reconAux cf (t + 1) n = (n.1, n.2.1) :: reconAux cf t prev by
          simp [reconAux, hlook]]
        rw [hprevt]
        simp
      rw [hunfold]
      set q := reconstruct cf s prev with hq
      refine ⟨by simp [hlen], ?_, ?_, ?_⟩
      · rcases q with _ | ⟨a, q'⟩
        · simp at hlen
        · simpa using hhead
      · simp
      · intro i hi
        have hqlen : q.length = t + 1 := hlen
        by_cases hit : i + 1 < t + 1
        · have h1 : (q ++ [(n.1, n.2.1)]).getD i dm = q.getD i dm := by
            apply List.getD_append
            omega
          have h2 : (q ++ [(n.1, n.2.1)]).getD (i + 1) dm = q.getD (i + 1) dm := by
            apply List.getD_append
            omega
          rw [h1, h2]
          exact hsteps i hit
        · have hieq : i = t := by omega
          subst hieq
          have h1 : (q ++ [(n.1, n.2.1)]).getD i dm = q.getD i dm := by
            apply List.getD_append
            omega
          have h2 : (q ++ [(n.1, n.2.1)]).getD (i + 1) dm = (n.1, n.2.1) := by
            have : i + 1 = q.length := by omega
            rw [this]
            simp [List.getD_append_right]
          rw [h1, h2]
          have hqi : q.getD i dm = (prev.1, prev.2.1) := by
            have hgl : q.getLast? = some (prev.1, prev.2.1) := hlast
            have : q.getD i dm = (q.get? i).getD dm := by
              simp [List.getD_eq_getElem?_getD]
            rw [List.getLast?_eq_getElem?] at hgl
            have hidx : q.length - 1 = i := by omega
            rw [hidx] at hgl
            simp [List.getD_eq_getElem?_getD, hgl]
          rw [hqi]
          have := hstep.2
          rw [hn] at this
          exact this

theorem aStarLoop_sound (grid : Grid) (s goal : Pos) (rv : RVert) (re : REdge)
    (cons : RVert) (maxT : Nat) :
    ∀ (fuel : Nat) (st : AState) (p : Path),
      StInv grid cons rv re s st →
      aStarLoop grid s goal rv re cons maxT fuel st = some p →
      p.head? = some s ∧ p.getLast? = some goal ∧
        ∀ i, i + 1 < p.length →
          moveAllowed grid cons rv re (p.getD i dm) (p.getD (i + 1) dm) (i + 1) = true := by
  intro fuel
  induction fuel with
  | zero => intro st p _ h; simp [aStarLoop] at h
  | succ fuel ih =>
    intro st p hst hrun
    obtain ⟨hcf, hv, ho⟩ := hst
    rw [aStarLoop] at hrun
    rcases hpop : heappop entryLe st.openl with _ | ⟨e, rest⟩
    · rw [hpop] at hrun; simp at hrun
    · rw [hpop] at hrun
      simp only at hrun
      have hmem := heappop_mem entryLe st.openl e rest hpop
      have hrest := heappop_rest_mem entryLe st.openl e rest hpop
      by_cases hgoal : (e.2.2.1, e.2.2.2.1) = goal
      · rw [if_pos hgoal] at hrun
        have hok : e.2.2 = startN s ∨ (dlookup st.cameFrom e.2.2).isSome := ho e hmem
        obtain ⟨hlen, hhead, hlast, hsteps⟩ :=
          recon_spec grid cons rv re s st.cameFrom hcf hv e.2.2.2.2 e.2.2 rfl hok
        obtain rfl : reconstruct st.cameFrom s e.2.2 = p := by injection hrun
        refine ⟨hhead, ?_, ?_⟩
        · rw [hlast, hgoal]
        · intro i hi
          rw [hlen] at hi
          exact hsteps i hi
      · rw [if_neg hgoal] at hrun
        by_cases hmax : maxT ≤ e.2.2.2.2
        · rw [if_pos hmax] at hrun
          exact ih { st with openl := rest } p
            ⟨hcf, hv, fun x hx => ho x (hrest x hx)⟩ hrun
        · rw [if_neg hmax] at hrun
          have hrestInv : StInv grid cons rv re s { st with openl := rest } :=
            ⟨hcf, hv, fun x hx => ho x (hrest x hx)⟩
          have hok : e.2.2 = startN s ∨ (dlookup st.cameFrom e.2.2).isSome := ho e hmem
          have hres :=
            expandMoves_pres grid cons rv re s goal e.2.2 MOVES
              { st with openl := rest } hrestInv hok
          exact ih _ p hres hrun

theorem a_star_sound (grid : Grid) (s goal : Pos) (rv : RVert) (re : REdge)
    (cons : RVert) (maxT : Nat) (p : Path)
    (h : a_star_with_reservations grid s goal rv re cons maxT = some p) :
    p.head? = some s ∧ p.getLast? = some goal ∧
      ∀ i, i + 1 < p.length →
        moveAllowed grid cons rv re (p.getD i dm) (p.getD (i + 1) dm) (i + 1) = true := by
  apply aStarLoop_sound grid s goal rv re cons maxT astarFuel _ p _ h
  refine ⟨?_, ?_, ?_⟩
  · intro n m hlook
    simp [dlookup] at hlook
  · intro n m hlook
    simp [dlookup] at hlook
  · intro e he
    simp at he
    rw [he]
    exact Or.inl rfl

/-! ### Reading off the components of the guard chain -/

theorem moveAllowed_iff (grid : Grid) (cons : RVert) (rv : RVert) (re : REdge)
    (u v : Pos) (nt : Nat) :
    moveAllowed grid cons rv re u v nt = true ↔
      (in_bounds v (grid.headD []).length grid.length = true ∧
        is_free grid v = true ∧
        ¬(cons ≠ [] ∧ bucketHas cons nt v = true) ∧
        bucketHas rv nt v = false ∧
        bucketHas re nt (v, u) = false) := by
  simp only [moveAllowed, Bool.and_eq_true, Bool.not_eq_true', Bool.and_eq_false_iff,
    decide_eq_false_iff_not, Bool.not_eq_true]
  constructor
  · rintro ⟨⟨⟨⟨h1, h2⟩, h3⟩, h4⟩, h5⟩
    refine ⟨h1, h2, ?_, h4, h5⟩
    rintro ⟨hc1, hc2⟩
    rcases h3 with h3 | h3
    · simp at h3; exact hc1 h3
    · rw [h3] at hc2; exact Bool.false_ne_true hc2
  · rintro ⟨h1, h2, h3, h4, h5⟩
    refine ⟨⟨⟨⟨h1, h2⟩, ?_⟩, h4⟩, h5⟩
    by_cases hc : cons = []
    · left; simp [hc]
    · right
      rcases hb : bucketHas cons nt v with _ | _
      · rfl
      · exact absurd ⟨hc, hb⟩ h3

/-! ### Reservation-table lemmas for the prioritized planner -/

theorem reserveIdx_mono_v (p : Path) :
    ∀ (ts : List Nat) (s : RVert × REdge) (t : Nat) (x : Pos),
      bucketHas s.1 t x = true → bucketHas (reserveIdx p ts s).1 t x = true := by
  intro ts
  induction ts with
  | nil => intro s t x h; exact h
  | cons t' rest ih =>
    intro s t x h
    obtain ⟨rv, re⟩ := s
    exact ih _ t x (bucketHas_mono _ _ _ _ _ h)

theorem reserveIdx_mono_e (p : Path) :
    ∀ (ts : List Nat) (s : RVert × REdge) (t : Nat) (x : Pos × Pos),
      bucketHas s.2 t x = true → bucketHas (reserveIdx p ts s).2 t x = true := by
  intro ts
  induction ts with
  | nil => intro s t x h; exact h
  | cons t' rest ih =>
    intro s t x h
    obtain ⟨rv, re⟩ := s
    apply ih
    by_cases ht : 0 < t'
    · simp only [reserveIdx, ht, if_true]
      exact bucketHas_mono _ _ _ _ _ h
    · simp only [reserveIdx, ht, if_false]
      exact h

theorem reserveIdx_cov_v (p : Path) :
    ∀ (ts : List Nat) (s : RVert × REdge) (t : Nat),
      t ∈ ts → bucketHas (reserveIdx p ts s).1 t (p.getD t dm) = true := by
  intro ts
  induction ts with
  | nil => intro s t h; simp at h
  | cons t' rest ih =>
    intro s t h
    obtain ⟨rv, re⟩ := s
    rcases List.mem_cons.mp h with rfl | h
    · exact reserveIdx_mono_v p rest _ t _ (bucketHas_bucketAdd_self _ _ _)
    · exact ih _ t h

theorem reserveIdx_cov_e (p : Path) :
    ∀ (ts : List Nat) (s : RVert × REdge) (t : Nat),
      t ∈ ts → 1 ≤ t →
      bucketHas (reserveIdx p ts s).2 t (p.getD (t - 1) dm, p.getD t dm) = true := by
  intro ts
  induction ts with
  | nil => intro s t h; simp at h
  | cons t' rest ih =>
    intro s t h h1
    obtain ⟨rv, re⟩ := s
    rcases List.mem_cons.mp h with rfl | h
    · have hb : bucketHas
          (if 0 < t then bucketAdd re t (p.getD (t - 1) dm, p.getD t dm) else re) t
          (p.getD (t - 1) dm, p.getD t dm) = true := by
        rw [if_pos (show 0 < t from h1)]
        exact bucketHas_bucketAdd_self _ _ _
      exact reserveIdx_mono_e p rest _ t _ hb
    · exact ih _ t h h1

/-! ### The invariant carried through the per-agent loop of
`prioritized_planning` -/

theorem planStep_pres_aux (grid : Grid) (ags : List AgentS)
    (rv : RVert) (re : REdge) (plans : List (Nat × Path)) (maxLen : Nat)
    (ag : AgentS) (hag : ag ∈ ags)
    (hent : ∀ aid p, dlookup plans aid = some p → EntryOK ags (rv, re, plans, maxLen) aid p)
    (hpair : ∀ aid p aid' p', dlookup plans aid = some p →
      dlookup plans aid' = some p' → aid ≠ aid' → PairOK p p')
    (path : Path) (hne : path ≠ []) (hhead : path.head? = some ag.start)
    (hlastor : path = [ag.start] ∨ path.getLast? = some ag.goal)
    (hsteps : ∀ i, i + 1 < path.length →
      moveAllowed grid [] rv re (path.getD i dm) (path.getD (i + 1) dm) (i + 1) = true) :
    PlansInv ags
      ((reserveIdx path (List.range path.length) (rv, re)).1,
        (reserveIdx path (List.range path.length) (rv, re)).2,
        dinsert plans ag.id path,
        if maxLen < path.length then path.length else maxLen) := by
  constructor
  · -- per-entry facts
    intro aid p hlook
    rw [show ((reserveIdx path (List.range path.length) (rv, re)).1,
        (reserveIdx path (List.range path.length) (rv, re)).2,
        dinsert plans ag.id path,
        if maxLen < path.length then path.length else maxLen).2.2.1 =
      dinsert plans ag.id path from rfl, dlookup_dinsert] at hlook
    by_cases hk : ag.id = aid
    · rw [if_pos hk] at hlook
      obtain rfl : path = p := by injection hlook
      refine ⟨hne, ⟨ag, hag, hk, hhead, hlastor⟩, ?_, ?_, ?_⟩
      · show path.length ≤ if maxLen < path.length then path.length else maxLen
        by_cases hml : maxLen < path.length
        · rw [if_pos hml]
        · rw [if_neg hml]; omega
      · intro t ht
        exact reserveIdx_cov_v path _ _ t (List.mem_range.mpr ht)
      · intro t h1 ht
        exact reserveIdx_cov_e path _ _ t (List.mem_range.mpr ht) h1
    · rw [if_neg hk] at hlook
      obtain ⟨h1, h2, h3, h4, h5⟩ := hent aid p hlook
      have h3' : p.length ≤ maxLen := h3
      refine ⟨h1, h2, ?_, ?_, ?_⟩
      · show p.length ≤ if maxLen < path.length then path.length else maxLen
        by_cases hml : maxLen < path.length
        · rw [if_pos hml]; omega
        · rw [if_neg hml]; exact h3'
      · intro t ht
        exact reserveIdx_mono_v path _ _ t _ (h4 t ht)
      · intro t ht1 ht
        exact reserveIdx_mono_e path _ _ t _ (h5 t ht1 ht)
  · -- pairwise conflict-freedom
    intro aid p aid' p' hlook hlook' hdiff
    rw [show ((reserveIdx path (List.range path.length) (rv, re)).1,
        (reserveIdx path (List.range path.length) (rv, re)).2,
        dinsert plans ag.id path,
        if maxLen < path.length then path.length else maxLen).2.2.1 =
      dinsert plans ag.id path from rfl, dlookup_dinsert] at hlook hlook'
    by_cases hk : ag.id = aid
    · rw [if_pos hk] at hlook
      obtain rfl : path = p := by injection hlook
      have hk' : ¬ ag.id = aid' := fun h => hdiff (hk ▸ h)
      rw [if_neg hk'] at hlook'
      obtain ⟨_, _, _, h4', h5'⟩ := hent aid' p' hlook'
      intro t h1 ht ht'
      have hstept := hsteps (t - 1) (by omega)
      rw [show t - 1 + 1 = t by omega] at hstept
      rw [moveAllowed_iff] at hstept
      obtain ⟨_, _, _, hrv0, hre0⟩ := hstept
      have h4'' : bucketHas rv t (p'.getD t dm) = true := h4' t ht'
      have h5'' : bucketHas re t (p'.getD (t - 1) dm, p'.getD t dm) = true := h5' t h1 ht'
      constructor
      · intro heq
        rw [heq] at hrv0
        rw [h4''] at hrv0
        exact Bool.noConfusion hrv0
      · rintro ⟨hsw1, hsw2⟩
        rw [show (path.getD t dm, path.getD (t - 1) dm) =
            (p'.getD (t - 1) dm, p'.getD t dm) by rw [hsw1, hsw2]] at hre0
        rw [h5''] at hre0
        exact Bool.noConfusion hre0
    · rw [if_neg hk] at hlook
      by_cases hk' : ag.id = aid'
      · rw [if_pos hk'] at hlook'
        obtain rfl : path = p' := by injection hlook'
        obtain ⟨_, _, _, h4, h5⟩ := hent aid p hlook
        intro t h1 ht ht'
        have hstept := hsteps (t - 1) (by omega)
        rw [show t - 1 + 1 = t by omega] at hstept
        rw [moveAllowed_iff] at hstept
        obtain ⟨_, _, _, hrv0, hre0⟩ := hstept
        have h4'' : bucketHas rv t (p.getD t dm) = true := h4 t ht
        have h5'' : bucketHas re t (p.getD (t - 1) dm, p.getD t dm) = true := h5 t h1 ht
        constructor
        · intro heq
          rw [← heq] at hrv0
          rw [h4''] at hrv0
          exact Bool.noConfusion hrv0
        · rintro ⟨hsw1, hsw2⟩
          rw [show (path.getD t dm, path.getD (t - 1) dm) =
              (p.getD (t - 1) dm, p.getD t dm) by rw [← hsw1, ← hsw2]] at hre0
          rw [h5''] at hre0
          exact Bool.noConfusion hre0
      · rw [if_neg hk'] at hlook'
        exact hpair aid p aid' p' hlook hlook' hdiff

theorem planStep_pres (grid : Grid) (ags : List AgentS)
    (st : RVert × REdge × List (Nat × Path) × Nat) (ag : AgentS)
    (hag : ag ∈ ags) (hinv : PlansInv ags st) :
    PlansInv ags (planStep grid st ag) := by
  obtain ⟨rv, re, plans, maxLen⟩ := st
  obtain ⟨hent, hpair⟩ := hinv
  rcases hrun : a_star_with_reservations grid ag.start ag.goal rv re [] 1000 with _ | p0
  · have hres := planStep_pres_aux grid ags rv re plans maxLen ag hag hent hpair
      [ag.start] (by simp) (by simp) (Or.inl rfl)
      (by intro i hi; simp at hi)
    have hstep : planStep grid (rv, re, plans, maxLen) ag =
        ((reserveIdx [ag.start] (List.range ([ag.start] : Path).length) (rv, re)).1,
          (reserveIdx [ag.start] (List.range ([ag.start] : Path).length) (rv, re)).2,
          dinsert plans ag.id [ag.start],
          if maxLen < ([ag.start] : Path).length then ([ag.start] : Path).length
          else maxLen) := by
      simp only [planStep, hrun]
    rw [hstep]
    exact hres
  · obtain ⟨hh, hl, hs⟩ := a_star_sound grid ag.start ag.goal rv re [] 1000 p0 hrun
    have hne : p0 ≠ [] := by
      intro hnil
      rw [hnil] at hh
      simp at hh
    have hres := planStep_pres_aux grid ags rv re plans maxLen ag hag hent hpair
      p0 hne hh (Or.inr hl) hs
    have hstep : planStep grid (rv, re, plans, maxLen) ag =
        ((reserveIdx p0 (List.range p0.length) (rv, re)).1,
          (reserveIdx p0 (List.range p0.length) (rv, re)).2,
          dinsert plans ag.id p0,
          if maxLen < p0.length then p0.length else maxLen) := by
      simp only [planStep, hrun]
    rw [hstep]
    exact hres

theorem planLoop_pres (grid : Grid) (ags : List AgentS) :
    ∀ (rem : List AgentS) (st : RVert × REdge × List (Nat × Path) × Nat),
      (∀ ag ∈ rem, ag ∈ ags) → PlansInv ags st →
      PlansInv ags (planLoop grid rem st) := by
  intro rem
  induction rem with
  | nil => intro st _ h; exact h
  | cons ag rest ih =>
    intro st hsub hinv
    exact ih _ (fun a ha => hsub a (List.mem_cons_of_mem ag ha))
      (planStep_pres grid ags st ag (hsub ag (List.mem_cons_self ag rest)) hinv)

theorem planLoop_keys_mono (grid : Grid) :
    ∀ (rem : List AgentS) (st : RVert × REdge × List (Nat × Path) × Nat) (k : Nat),
      (dlookup st.2.2.1 k).isSome →
      (dlookup (planLoop grid rem st).2.2.1 k).isSome := by
  intro rem
  induction rem with
  | nil => intro st k h; exact h
  | cons ag rest ih =>
    intro st k h
    apply ih
    show (dlookup (planStep grid st ag).2.2.1 k).isSome
    obtain ⟨rv, re, plans, maxLen⟩ := st
    rcases hrun : a_star_with_reservations grid ag.start ag.goal rv re [] 1000 with _ | p0 <;>
      (simp only [planStep, hrun]; exact isSome_dlookup_dinsert _ _ _ _ h)

theorem planLoop_covers (grid : Grid) :
    ∀ (rem : List AgentS) (st : RVert × REdge × List (Nat × Path) × Nat) (ag : AgentS),
      ag ∈ rem → (dlookup (planLoop grid rem st).2.2.1 ag.id).isSome := by
  intro rem
  induction rem with
  | nil => intro st ag h; simp at h
  | cons a rest ih =>
    intro st ag h
    rcases List.mem_cons.mp h with rfl | h
    · show (dlookup (planLoop grid rest (planStep grid st ag)).2.2.1 ag.id).isSome = true
      apply planLoop_keys_mono
      show (dlookup (planStep grid st ag).2.2.1 ag.id).isSome
      obtain ⟨rv, re, plans, maxLen⟩ := st
      rcases hrun : a_star_with_reservations grid ag.start ag.goal rv re [] 1000 with _ | p0 <;>
        (simp only [planStep, hrun]; rw [dlookup_dinsert_self]; rfl)
    · exact ih _ ag h

/-! ### Lemmas about the pad-at-goal phase -/

theorem dlookup_padPlans (plans : List (Nat × Path)) (L : Nat) (aid : Nat) :
    dlookup (padPlans plans L) aid =
      (dlookup plans aid).map fun p =>
        if p.length < L then p ++ List.replicate (L - p.length) (p.getLastD dm) else p := by
  induction plans with
  | nil => simp [padPlans, dlookup]
  | cons pr rest ih =>
    obtain ⟨k, p⟩ := pr
    by_cases hk : k = aid
    · subst hk
      simp [padPlans, dlookup]
    · simp only [padPlans, List.map_cons, dlookup, hk, if_false] at ih ⊢
      exact ih

theorem padded_length (p : Path) (L : Nat) (hle : p.length ≤ L) :
    (if p.length < L then p ++ List.replicate (L - p.length) (p.getLastD dm) else p).length
      = L := by
  by_cases h : p.length < L
  · rw [if_pos h]
    simp
    omega
  · rw [if_neg h]
    omega

theorem padded_getD (p : Path) (L : Nat) (t : Nat) (ht : t < p.length) :
    (if p.length < L then p ++ List.replicate (L - p.length) (p.getLastD dm) else p).getD t dm
      = p.getD t dm := by
  by_cases h : p.length < L
  · rw [if_pos h]
    exact List.getD_append _ _ _ _ ht
  · rw [if_neg h]

theorem padded_head (p : Path) (L : Nat) (hne : p ≠ []) :
    (if p.length < L then p ++ List.replicate (L - p.length) (p.getLastD dm) else p).head?
      = p.head? := by
  by_cases h : p.length < L
  · rw [if_pos h]
    rcases p with _ | ⟨a, rest⟩
    · exact absurd rfl hne
    · simp
  · rw [if_neg h]

/-! ### Small list helpers -/

theorem nodup_map_inj {α β : Type} (f : α → β) (l : List α)
    (h : (l.map f).Nodup) : ∀ a ∈ l, ∀ b ∈ l, f a = f b → a = b := by
  induction l with
  | nil => intro a ha; simp at ha
  | cons x rest ih =>
    intro a ha b hb hf
    simp only [List.map_cons, List.nodup_cons] at h
    obtain ⟨hx, hrest⟩ := h
    rcases List.mem_cons.mp ha with rfl | ha' <;> rcases List.mem_cons.mp hb with rfl | hb'
    · rfl
    · apply absurd _ hx
      rw [hf]
      exact List.mem_map_of_mem f hb'
    · apply absurd _ hx
      rw [← hf]
      exact List.mem_map_of_mem f ha'
    · exact ih hrest a ha' b hb' hf

theorem getD_zero_of_head (p : Path) (x : Pos) (h : p.head? = some x) :
    p.getD 0 dm = x := by
  rcases p with _ | ⟨a, rest⟩
  · simp at h
  · simp at h
    simp [h]

/-! ### Support for the claims about the low-level constraint translation -/

theorem cfaLoop_fst (aid : Nat) :
    ∀ (cs : List Constr) (vc : RVert) (ec ec' : REdge),
      (cfaLoop aid (cs.filter fun c => !c.isEdge) (vc, ec')).1 =
        (cfaLoop aid cs (vc, ec)).1 := by
  intro cs
  induction cs with
  | nil => intro vc ec ec'; rfl
  | cons c rest ih =>
    intro vc ec ec'
    cases c with
    | vertex a pos t =>
      rw [show (Constr.vertex a pos t :: rest).filter (fun c => !c.isEdge) =
          Constr.vertex a pos t :: rest.filter (fun c => !c.isEdge) by
        simp [List.filter, Constr.isEdge]]
      show (cfaLoop aid (rest.filter fun c => !c.isEdge)
          (if a = aid then bucketAdd vc t pos else vc, ec')).1 = _
      rw [ih]
      rfl
    | edge a u v t =>
      rw [show (Constr.edge a u v t :: rest).filter (fun c => !c.isEdge) =
          rest.filter (fun c => !c.isEdge) by simp [List.filter, Constr.isEdge]]
      show _ = (cfaLoop aid rest (vc, if a = aid then bucketAdd ec t (u, v) else ec)).1
      exact ih vc _ ec'

/-! ### The `(f, g)` key invariant of the A* open list -/

theorem expandOne_fgInv (grid : Grid) (cons : RVert) (rv : RVert) (re : REdge)
    (goal : Pos) (node : Node) (mv : Int × Int) (st : AState)
    (h : fgInv goal st.openl) :
    fgInv goal (expandOne grid cons rv re goal node mv st).openl := by
  unfold expandOne
  by_cases hmv : moveAllowed grid cons rv re (node.1, node.2.1)
      (node.1 + mv.1, node.2.1 + mv.2) (node.2.2 + 1) = true
  · rw [if_pos hmv]
    by_cases hg : ((dlookup st.gscore node).getD 0) + 1 <
        ((dlookup st.gscore (node.1 + mv.1, node.2.1 + mv.2, node.2.2 + 1)).getD 1000000000)
    · rw [if_pos hg]
      intro e he
      rcases List.mem_cons.mp he with rfl | he
      · rfl
      · exact h e he
    · rw [if_neg hg]; exact h
  · rw [if_neg hmv]; exact h

theorem expandMoves_fgInv (grid : Grid) (cons : RVert) (rv : RVert) (re : REdge)
    (goal : Pos) (node : Node) :
    ∀ (ms : List (Int × Int)) (st : AState), fgInv goal st.openl →
      fgInv goal (expandMoves grid cons rv re goal node ms st).openl := by
  intro ms
  induction ms with
  | nil => intro st h; exact h
  | cons mv rest ih =>
    intro st h
    exact ih _ (expandOne_fgInv grid cons rv re goal node mv st h)

/-! ### Equality of sorted lists with distinct keys (for the permutation law) -/

theorem sorted_nodup_perm_eq :
    ∀ (l1 l2 : List AgentS), l1.Perm l2 →
      l1.Sorted (fun a b => a.id ≤ b.id) → l2.Sorted (fun a b => a.id ≤ b.id) →
      (l1.map (fun a => a.id)).Nodup → l1 = l2 := by
  intro l1
  induction l1 with
  | nil =>
    intro l2 hp _ _ _
    exact (List.Perm.eq_nil hp.symm).symm
  | cons a t1 ih =>
    intro l2 hp hs1 hs2 hnd
    cases l2 with
    | nil => exact absurd (List.Perm.eq_nil hp) (by simp)
    | cons b t2 =>
      have hab : a = b := by
        have hain : a ∈ b :: t2 := hp.subset (List.mem_cons_self a t1)
        have hbin : b ∈ a :: t1 := hp.symm.subset (List.mem_cons_self b t2)
        rcases List.mem_cons.mp hain with h1 | h1
        · exact h1
        · rcases List.mem_cons.mp hbin with h2 | h2
          · exact h2.symm
          · have hid1 : a.id ≤ b.id := (List.rel_of_sorted_cons hs1) b h2
            have hid2 : b.id ≤ a.id := (List.rel_of_sorted_cons hs2) a h1
            have heq : a.id = b.id := Nat.le_antisymm hid1 hid2
            simp only [List.map_cons, List.nodup_cons] at hnd
            exfalso
            apply hnd.1
            rw [heq]
            exact List.mem_map_of_mem (fun x => x.id) h2
      subst hab
      have hnd' : (t1.map (fun a => a.id)).Nodup := by
        simp only [List.map_cons, List.nodup_cons] at hnd
        exact hnd.2
      rw [ih t2 hp.cons_inv hs1.of_cons hs2.of_cons hnd']

/-! ### The loop invariant holds at the end of the prioritized planner -/

theorem planLoop_final_inv (grid : Grid) (ags : List AgentS) :
    PlansInv ags (planLoop grid ags ([], [], [], 0)) := by
  apply planLoop_pres grid ags ags ([], [], [], 0) (fun _ h => h)
  constructor
  · intro aid p h
    simp [dlookup] at h
  · intro aid p aid' p' h
    simp [dlookup] at h

/-! ### Concrete inputs used by the witnesses and counterexamples -/

/-- C1 (counterexample): the claim says an Edge constraint
`("edge", aid, u, v, t)` is encoded by forbidding the destination vertex `v`
at arrival time `t` in the constraints map passed to the low-level A*, so a
replanned path never arrives at `v` at `t`.  On the corridor `[[0,0,0]]`,
replanning agent 0 from (0,0) to (2,0) under the single constraint
`("edge", 0, (0,0), (1,0), 1)` returns the direct path, which arrives at the
forbidden destination `v = (1,0)` exactly at time `t = 1`: `low_level_search`
drops the edge-constraint dict on the floor. -/
theorem claim_C1_counterexample :
    low_level_search [[0, 0, 0]] (0, 0) (2, 0) 0 [Constr.edge 0 (0, 0) (1, 0) 1] 1000 =
        some [(0, 0), (1, 0), (2, 0)] ∧
      ([((0 : Int), (0 : Int)), (1, 0), (2, 0)] : Path).getD 1 dm = (1, 0) :=
  ⟨by decide, by decide⟩

/-- C1 (amended): edge constraints are not encoded at all in the low-level
search; `constraints_for_agent` files them in a separate edge dict which
`low_level_search` never passes to the A*.  Consequently deleting every edge
constraint from the constraint list leaves the replanned path unchanged:
only vertex constraints restrict the search. -/
theorem claim_C1_amended (grid : Grid) (s g : Pos) (aid : Nat) (cs : List Constr)
    (maxT : Nat) :
    low_level_search grid s g aid (cs.filter fun c => !c.isEdge) maxT =
      low_level_search grid s g aid cs maxT := by
  show a_star_with_reservations grid s g [] []
      (cfaLoop aid (cs.filter fun c => !c.isEdge) ([], [])).1 maxT =
    a_star_with_reservations grid s g [] [] (cfaLoop aid cs ([], [])).1 maxT
  rw [cfaLoop_fst aid cs [] [] []]

/-- C2 (counterexample): the claim says the padded output of
`prioritized_planning` is free of vertex and edge conflicts for every valid
input.  On the corridor `[[0,0,0]]` with agents `0 : (1,0) -> (0,0)` and
`1 : (0,0) -> (2,0)` (all in bounds, obstacle-free, pairwise distinct), agent
1 finds no path (agent 0's reservations block every first move) and is left
at `[start]`; after pad-at-goal both agents sit at `(0,0)` at time 1 — a
vertex conflict in the returned map. -/
theorem claim_C2_counterexample :
    prioritized_planning [[0, 0, 0]] [⟨0, (1, 0), (0, 0)⟩, ⟨1, (0, 0), (2, 0)⟩] "id"
        (fun l => l) = [(0, [(1, 0), (0, 0)]), (1, [(0, 0), (0, 0)])] ∧
      ([((1 : Int), (0 : Int)), (0, 0)] : Path).getD 1 dm =
        ([((0 : Int), (0 : Int)), (0, 0)] : Path).getD 1 dm :=
  ⟨by decide, by decide⟩

/-- C2 (amended): for agents with pairwise distinct ids and pairwise distinct
starts, the paths recorded by the planning loop of `prioritized_planning`
never share a vertex and never swap an edge at any time index that both
paths still cover before pad-at-goal, and within that range the padded
output agrees with the recorded paths.  (Conflicts can only appear in the
padded region, as the counterexample shows: padding adds no reservations.) -/
theorem claim_C2_amended (grid : Grid) (agents : List AgentS) (priority : String)
    (shuffle : List AgentS → List AgentS)
    (hperm : (orderAgents priority shuffle agents).Perm agents)
    (hpw : agents.Pairwise fun a b => a.id ≠ b.id ∧ a.start ≠ b.start)
    (a1 : Nat) (p1 : Path) (a2 : Nat) (p2 : Path)
    (h1 : dlookup (planLoop grid (orderAgents priority shuffle agents)
      ([], [], [], 0)).2.2.1 a1 = some p1)
    (h2 : dlookup (planLoop grid (orderAgents priority shuffle agents)
      ([], [], [], 0)).2.2.1 a2 = some p2)
    (hne : a1 ≠ a2) (t : Nat) (ht1 : t < p1.length) (ht2 : t < p2.length) :
    p1.getD t dm ≠ p2.getD t dm ∧
      ¬(1 ≤ t ∧ p1.getD (t - 1) dm = p2.getD t dm ∧ p1.getD t dm = p2.getD (t - 1) dm) ∧
      ∀ q1, dlookup (prioritized_planning grid agents priority shuffle) a1 = some q1 →
        q1.getD t dm = p1.getD t dm := by
  obtain ⟨hent, hpair⟩ := planLoop_final_inv grid (orderAgents priority shuffle agents)
  refine ⟨?_, ?_, ?_⟩
  · by_cases h1t : 1 ≤ t
    · exact (hpair a1 p1 a2 p2 h1 h2 hne t h1t ht1 ht2).1
    · have ht0 : t = 0 := by omega
      subst ht0
      obtain ⟨hne1, ⟨ag1, hm1, hid1, hh1, _⟩, _, _, _⟩ := hent a1 p1 h1
      obtain ⟨hne2, ⟨ag2, hm2, hid2, hh2, _⟩, _, _, _⟩ := hent a2 p2 h2
      rw [getD_zero_of_head p1 ag1.start hh1, getD_zero_of_head p2 ag2.start hh2]
      have hsymm : Symmetric (fun a b : AgentS => a.id ≠ b.id ∧ a.start ≠ b.start) :=
        fun a b h => ⟨h.1.symm, h.2.symm⟩
      have hpw' : (orderAgents priority shuffle agents).Pairwise
          fun a b => a.id ≠ b.id ∧ a.start ≠ b.start :=
        (hperm.pairwise_iff fun h => hsymm h).mpr hpw
      have hagne : ag1 ≠ ag2 := by
        intro heq
        apply hne
        rw [← hid1, ← hid2, heq]
      exact (List.Pairwise.forall hsymm hpw' hm1 hm2 hagne).2
  · rintro ⟨h1t, hsw1, hsw2⟩
    exact (hpair a1 p1 a2 p2 h1 h2 hne t h1t ht1 ht2).2 ⟨hsw1, hsw2⟩
  · intro q1 hq1
    simp only [prioritized_planning] at hq1
    rw [dlookup_padPlans] at hq1
    obtain ⟨q0, hq0, hpad⟩ := Option.map_eq_some'.mp hq1
    rw [h1] at hq0
    have hq0' : q0 = p1 := by injection hq0 with h; exact h.symm
    rw [hq0'] at hpad
    rw [← hpad]
    exact padded_getD p1 _ t ht1

/-- C2 (witness): the amended theorem applied on the corridor instance at
time 0, where it yields distinct positions of the two recorded paths. -/
theorem claim_C2_witness :
    ((orderAgents "id" (fun l => l) cwAgents).Perm cwAgents ∧
      cwAgents.Pairwise (fun a b => a.id ≠ b.id ∧ a.start ≠ b.start) ∧
      dlookup (planLoop cwGrid (orderAgents "id" (fun l => l) cwAgents)
        ([], [], [], 0)).2.2.1 0 = some [(1, 0), (0, 0)] ∧
      dlookup (planLoop cwGrid (orderAgents "id" (fun l => l) cwAgents)
        ([], [], [], 0)).2.2.1 1 = some [(0, 0)] ∧ (0 : Nat) ≠ 1 ∧
      (0 : Nat) < ([((1 : Int), (0 : Int)), (0, 0)] : Path).length ∧
      (0 : Nat) < ([((0 : Int), (0 : Int))] : Path).length) ∧
    (([((1 : Int), (0 : Int)), (0, 0)] : Path).getD 0 dm ≠
        ([((0 : Int), (0 : Int))] : Path).getD 0 dm ∧
      ¬(1 ≤ 0 ∧ ([((1 : Int), (0 : Int)), (0, 0)] : Path).getD (0 - 1) dm =
          ([((0 : Int), (0 : Int))] : Path).getD 0 dm ∧
        ([((1 : Int), (0 : Int)), (0, 0)] : Path).getD 0 dm =
          ([((0 : Int), (0 : Int))] : Path).getD (0 - 1) dm) ∧
      ∀ q1, dlookup (prioritized_planning cwGrid cwAgents "id" (fun l => l)) 0 = some q1 →
        q1.getD 0 dm = ([((1 : Int), (0 : Int)), (0, 0)] : Path).getD 0 dm) := by
  have hperm : (orderAgents "id" (fun l => l) cwAgents).Perm cwAgents := by
    rw [show orderAgents "id" (fun l => l) cwAgents = cwAgents from rfl]
  refine ⟨⟨hperm, by decide, by decide, by decide, by decide, by decide, by decide⟩, ?_⟩
  exact claim_C2_amended cwGrid cwAgents "id" (fun l => l) hperm (by decide)
    0 [(1, 0), (0, 0)] 1 [(0, 0)] (by decide) (by decide) (by decide) 0
    (by decide) (by decide)

/-- C3 (counterexample): the claim says every planner pads its output to
equal lengths.  `cbs` performs no padding: on a free 2×3 grid with agents
`0 : (0,0) -> (2,0)` and `1 : (0,1) -> (1,1)` the root node is conflict-free
and is returned as-is, with paths of lengths 3 and 2. -/
theorem claim_C3_counterexample :
    cbs [[0, 0, 0], [0, 0, 0]] [⟨0, (0, 0), (2, 0)⟩, ⟨1, (0, 1), (1, 1)⟩]
        (fun _ => false) 1000 50 "prioritized" "id" (fun l => l) =
        [(0, [(0, 0), (1, 0), (2, 0)]), (1, [(0, 1), (1, 1)])] ∧
      ([((0 : Int), (0 : Int)), (1, 0), (2, 0)] : Path).length ≠
        ([((0 : Int), (1 : Int)), (1, 1)] : Path).length :=
  ⟨by decide, by decide⟩

/-- C3 (amended): the equal-length pad-at-goal invariant holds for
`prioritized_planning` (every two paths of its returned map have the same
length); it does not hold for `cbs`, whose conflict-free solutions are
returned without padding, as the counterexample shows (the CBS prioritized
fallback inherits it from `prioritized_planning`). -/
theorem claim_C3_amended (grid : Grid) (agents : List AgentS) (priority : String)
    (shuffle : List AgentS → List AgentS) (a1 : Nat) (p1 : Path) (a2 : Nat) (p2 : Path)
    (h1 : dlookup (prioritized_planning grid agents priority shuffle) a1 = some p1)
    (h2 : dlookup (prioritized_planning grid agents priority shuffle) a2 = some p2) :
    p1.length = p2.length := by
  obtain ⟨hent, _⟩ := planLoop_final_inv grid (orderAgents priority shuffle agents)
  simp only [prioritized_planning] at h1 h2
  rw [dlookup_padPlans] at h1 h2
  obtain ⟨q1, hq1, hpad1⟩ := Option.map_eq_some'.mp h1
  obtain ⟨q2, hq2, hpad2⟩ := Option.map_eq_some'.mp h2
  obtain ⟨_, _, hlen1, _, _⟩ := hent a1 q1 hq1
  obtain ⟨_, _, hlen2, _, _⟩ := hent a2 q2 hq2
  have e1 : p1.length = (planLoop grid (orderAgents priority shuffle agents)
      ([], [], [], 0)).2.2.2 := by
    rw [← hpad1]
    exact padded_length q1 _ hlen1
  have e2 : p2.length = (planLoop grid (orderAgents priority shuffle agents)
      ([], [], [], 0)).2.2.2 := by
    rw [← hpad2]
    exact padded_length q2 _ hlen2
  rw [e1, e2]

/-- C3 (witness): the amended theorem applied on the corridor instance,
where both padded paths have length 2. -/
theorem claim_C3_witness :
    (dlookup (prioritized_planning cwGrid cwAgents "id" (fun l => l)) 0 =
        some [(1, 0), (0, 0)] ∧
      dlookup (prioritized_planning cwGrid cwAgents "id" (fun l => l)) 1 =
        some [(0, 0), (0, 0)]) ∧
    ([((1 : Int), (0 : Int)), (0, 0)] : Path).length =
      ([((0 : Int), (0 : Int)), (0, 0)] : Path).length :=
  ⟨⟨by decide, by decide⟩,
    claim_C3_amended cwGrid cwAgents "id" (fun l => l) 0 [(1, 0), (0, 0)]
      1 [(0, 0), (0, 0)] (by decide) (by decide)⟩

/-- C4 (counterexample): the claim says that among entries with equal `f`
the one with larger `g` is popped first.  `heapq` is a min-heap on the tuple
`(f, g, node)`, so with `f = 5` the entry with `g = 1` is popped before the
entry with `g = 3`. -/
theorem claim_C4_counterexample :
    heappop entryLe [((5 : Nat), (3 : Nat), ((0 : Int), (0 : Int), (0 : Nat))),
        (5, 1, (1, 1, 1))] =
      some ((5, 1, (1, 1, 1)), [(5, 3, (0, 0, 0))]) := by rfl

/-- C4 (amended): the open-list priority key is `(f, g)` with `f = g + h`
(the initial entry satisfies it and every expansion pushes entries
satisfying it, and popping preserves it), and the pop of the open list
returns a lexicographically least entry — so among entries with equal `f`
the one with the SMALLER `g` is popped first. -/
theorem claim_C4_amended :
    (∀ (l : List Entry) (e : Entry) (rest : List Entry),
      heappop entryLe l = some (e, rest) → ∀ x ∈ l, entryLe e x = true) ∧
    (∀ (f g g' : Nat) (n n' : Node), g < g' →
      entryLe (f, g, n) (f, g', n') = true ∧ entryLe (f, g', n') (f, g, n) = false) ∧
    (∀ s goal : Pos, fgInv goal [(heuristic s goal, 0, (s.1, s.2, 0))]) ∧
    (∀ (grid : Grid) (cons : RVert) (rv : RVert) (re : REdge) (goal : Pos)
      (node : Node) (ms : List (Int × Int)) (st : AState), fgInv goal st.openl →
      fgInv goal (expandMoves grid cons rv re goal node ms st).openl) ∧
    (∀ (goal : Pos) (l : List Entry) (e : Entry) (rest : List Entry),
      heappop entryLe l = some (e, rest) → fgInv goal l →
      fgInv goal rest ∧ e.1 = e.2.1 + heuristic (e.2.2.1, e.2.2.2.1) goal) := by
  refine ⟨?_, ?_, ?_, ?_, ?_⟩
  · exact heappop_min entryLe entryLe_total entryLe_trans
  · intro f g g' n n' hg
    constructor
    · rw [entryLe_iff]
      simp
      omega
    · rcases hb : entryLe (f, g', n') (f, g, n) with _ | _
      · rfl
      · exfalso
        have := (entryLe_iff _ _).mp hb
        simp at this
        omega
  · intro s goal e he
    simp only [List.mem_singleton] at he
    subst he
    show heuristic s goal = 0 + heuristic (s.1, s.2) goal
    simp
  · exact expandMoves_fgInv
  · intro goal l e rest hpop hinv
    exact ⟨fun x hx => hinv x (heappop_rest_mem entryLe l e rest hpop x hx),
      hinv e (heappop_mem entryLe l e rest hpop)⟩

/-- C4 (witness): the amended theorem applied to a concrete two-entry open
list with equal `f = 5`: the pop is below both entries and the `g = 1` entry
beats the `g = 3` entry. -/
theorem claim_C4_witness :
    heappop entryLe [((5 : Nat), (3 : Nat), ((0 : Int), (0 : Int), (0 : Nat))),
        (5, 1, (1, 1, 1))] = some ((5, 1, (1, 1, 1)), [(5, 3, (0, 0, 0))]) ∧
    entryLe ((5 : Nat), (1 : Nat), ((1 : Int), (1 : Int), (1 : Nat))) (5, 3, (0, 0, 0)) = true ∧
    (entryLe ((5 : Nat), (1 : Nat), ((1 : Int), (1 : Int), (1 : Nat))) (5, 3, (0, 0, 0)) = true ∧
      entryLe ((5 : Nat), (3 : Nat), ((0 : Int), (0 : Int), (0 : Nat))) (5, 1, (1, 1, 1)) = false) ∧
    fgInv (0, 0) [(heuristic (2, 2) (0, 0), 0, ((2 : Int), (2 : Int), (0 : Nat)))] :=
  ⟨by rfl,
    claim_C4_amended.1
      [((5 : Nat), (3 : Nat), ((0 : Int), (0 : Int), (0 : Nat))), (5, 1, (1, 1, 1))]
      ((5 : Nat), (1 : Nat), ((1 : Int), (1 : Int), (1 : Nat)))
      [((5 : Nat), (3 : Nat), ((0 : Int), (0 : Int), (0 : Nat)))] (by rfl)
      ((5 : Nat), (3 : Nat), ((0 : Int), (0 : Int), (0 : Nat))) (by simp),
    claim_C4_amended.2.1 5 1 3 ((1 : Int), (1 : Int), (1 : Nat)) ((0 : Int), (0 : Int), (0 : Nat)) (by decide),
    claim_C4_amended.2.2.1 (2, 2) (0, 0)⟩

/-- C7: a move `u -> v` arriving at `t` fails the edge-reservation test of
the space-time A* exactly when the opposing transition `(v, u)` is reserved
at `t`; a same-direction reservation `(u, v)` alone never blocks the move
(the guard is allowed whenever `(v, u)` is absent and the other checks
pass, regardless of `(u, v)`). -/
theorem claim_C7 (grid : Grid) (cons : RVert) (rv : RVert) (re : REdge)
    (u v : Pos) (nt : Nat) :
    (moveAllowed grid cons rv re u v nt = true → bucketHas re nt (v, u) = false) ∧
    (bucketHas re nt (v, u) = true → moveAllowed grid cons rv re u v nt = false) ∧
    (in_bounds v (grid.headD []).length grid.length = true →
      is_free grid v = true →
      ¬(cons ≠ [] ∧ bucketHas cons nt v = true) →
      bucketHas rv nt v = false →
      bucketHas re nt (v, u) = false →
      moveAllowed grid cons rv re u v nt = true) := by
  refine ⟨?_, ?_, ?_⟩
  · intro h
    exact ((moveAllowed_iff grid cons rv re u v nt).mp h).2.2.2.2
  · intro h
    rcases hb : moveAllowed grid cons rv re u v nt with _ | _
    · rfl
    · exfalso
      have := ((moveAllowed_iff grid cons rv re u v nt).mp hb).2.2.2.2
      rw [h] at this
      exact Bool.noConfusion this
  · intro h1 h2 h3 h4 h5
    exact (moveAllowed_iff grid cons rv re u v nt).mpr ⟨h1, h2, h3, h4, h5⟩

/-- C7 (witness): on the grid `[[0,0]]` with only the same-direction
reservation `(0,0) -> (1,0)` at time 1 recorded, the move `(0,0) -> (1,0)`
arriving at time 1 is allowed. -/
theorem claim_C7_witness :
    bucketHas c7re 1 (((0 : Int), (0 : Int)), ((1 : Int), (0 : Int))) = true ∧
      moveAllowed [[0, 0]] [] [] c7re (0, 0) (1, 0) 1 = true :=
  ⟨by decide,
    (claim_C7 [[0, 0]] [] [] c7re (0, 0) (1, 0) 1).2.2 (by decide) (by decide)
      (by decide) (by decide) (by decide)⟩

/-- C9: with `priority = "id"` and pairwise-distinct agent ids (ids are
unique within a plan by the data model), `prioritized_planning` returns the
same map for any permutation of the agents list: the stable sort by id maps
both lists to the same planning order. -/
theorem claim_C9 (grid : Grid) (agents1 agents2 : List AgentS)
    (shuffle : List AgentS → List AgentS)
    (hids : (agents1.map (fun a => a.id)).Nodup) (hperm : agents1.Perm agents2) :
    prioritized_planning grid agents1 "id" shuffle =
      prioritized_planning grid agents2 "id" shuffle := by
  have horder : ∀ l : List AgentS, orderAgents "id" shuffle l =
      List.insertionSort (fun a b => a.id ≤ b.id) l := fun l => rfl
  have hkey : orderAgents "id" shuffle agents1 = orderAgents "id" shuffle agents2 := by
    rw [horder, horder]
    apply sorted_nodup_perm_eq
    · exact (List.perm_insertionSort (fun a b => a.id ≤ b.id) agents1).trans
        (hperm.trans (List.perm_insertionSort (fun a b => a.id ≤ b.id) agents2).symm)
    · exact List.sorted_insertionSort (fun a b => a.id ≤ b.id) agents1
    · exact List.sorted_insertionSort (fun a b => a.id ≤ b.id) agents2
    · exact (((List.perm_insertionSort (fun a b => a.id ≤ b.id) agents1).map
        (fun a => a.id)).nodup_iff).mpr hids
  simp only [prioritized_planning]
  rw [hkey]

/-- C9 (witness): the permutation law applied to the two orderings of a
concrete two-agent list with distinct ids. -/
theorem claim_C9_witness :
    (([⟨1, (0, 0), (1, 0)⟩, ⟨0, (2, 0), (2, 0)⟩] : List AgentS).map
      (fun a => a.id)).Nodup ∧
    prioritized_planning cwGrid [⟨1, (0, 0), (1, 0)⟩, ⟨0, (2, 0), (2, 0)⟩] "id"
        (fun l => l) =
      prioritized_planning cwGrid [⟨0, (2, 0), (2, 0)⟩, ⟨1, (0, 0), (1, 0)⟩] "id"
        (fun l => l) :=
  ⟨by decide,
    claim_C9 cwGrid _ _ (fun l => l) (by decide)
      (List.Perm.swap (⟨0, (2, 0), (2, 0)⟩ : AgentS) (⟨1, (0, 0), (1, 0)⟩ : AgentS) [])⟩

/-- C6: for every agent of a list with pairwise-distinct ids,
`prioritized_planning` records a path whose first element is the agent's
start, and whose last element is the agent's goal unless it is exactly
`[start]` (which is what the loop substitutes when the low-level search
fails); the returned padded path also begins at the start. -/
theorem claim_C6 (grid : Grid) (agents : List AgentS) (priority : String)
    (shuffle : List AgentS → List AgentS)
    (hperm : (orderAgents priority shuffle agents).Perm agents)
    (hids : (agents.map (fun a => a.id)).Nodup)
    (ag : AgentS) (hag : ag ∈ agents) :
    ∃ p, dlookup (planLoop grid (orderAgents priority shuffle agents)
        ([], [], [], 0)).2.2.1 ag.id = some p ∧
      p.head? = some ag.start ∧ (p = [ag.start] ∨ p.getLast? = some ag.goal) ∧
      ∀ q, dlookup (prioritized_planning grid agents priority shuffle) ag.id = some q →
        q.head? = some ag.start := by
  have hag' : ag ∈ orderAgents priority shuffle agents := hperm.mem_iff.mpr hag
  have hcov := planLoop_covers grid (orderAgents priority shuffle agents)
    ([], [], [], 0) ag hag'
  obtain ⟨p, hp⟩ := Option.isSome_iff_exists.mp hcov
  obtain ⟨hent, _⟩ := planLoop_final_inv grid (orderAgents priority shuffle agents)
  obtain ⟨hne, ⟨ag', hm', hid', hh', hl'⟩, _, _, _⟩ := hent ag.id p hp
  have hagents' : ag' ∈ agents := hperm.subset hm'
  have heq : ag' = ag := nodup_map_inj (fun a => a.id) agents hids ag' hagents' ag hag hid'
  subst heq
  refine ⟨p, hp, hh', hl', ?_⟩
  intro q hq
  simp only [prioritized_planning] at hq
  rw [dlookup_padPlans] at hq
  obtain ⟨q0, hq0, hpad⟩ := Option.map_eq_some'.mp hq
  rw [hp] at hq0
  have hq0' : q0 = p := by injection hq0 with h; exact h.symm
  rw [hq0'] at hpad
  rw [← hpad, padded_head p _ hne]
  exact hh'

/-- C6 (witness): the theorem applied to agent 0 of the corridor instance;
its recorded path is `[(1,0), (0,0)]`, starting at `(1,0)` and ending at its
goal `(0,0)`. -/
theorem claim_C6_witness :
    ((orderAgents "id" (fun l => l) cwAgents).Perm cwAgents ∧
      (cwAgents.map (fun a => a.id)).Nodup ∧
      (⟨0, (1, 0), (0, 0)⟩ : AgentS) ∈ cwAgents) ∧
    (∃ p, dlookup (planLoop cwGrid (orderAgents "id" (fun l => l) cwAgents)
        ([], [], [], 0)).2.2.1 (⟨0, (1, 0), (0, 0)⟩ : AgentS).id = some p ∧
      p.head? = some (⟨0, (1, 0), (0, 0)⟩ : AgentS).start ∧
      (p = [(⟨0, (1, 0), (0, 0)⟩ : AgentS).start] ∨
        p.getLast? = some (⟨0, (1, 0), (0, 0)⟩ : AgentS).goal) ∧
      ∀ q, dlookup (prioritized_planning cwGrid cwAgents "id" (fun l => l))
          (⟨0, (1, 0), (0, 0)⟩ : AgentS).id = some q →
        q.head? = some (⟨0, (1, 0), (0, 0)⟩ : AgentS).start) := by
  have hperm : (orderAgents "id" (fun l => l) cwAgents).Perm cwAgents := by
    rw [show orderAgents "id" (fun l => l) cwAgents = cwAgents from rfl]
  refine ⟨⟨hperm, by decide, by decide⟩, ?_⟩
  exact claim_C6 cwGrid cwAgents "id" (fun l => l) hperm (by decide)
    ⟨0, (1, 0), (0, 0)⟩ (by decide)

/-! ### Support for the CBS termination-guard claim -/

theorem prioritized_covers (grid : Grid) (agents : List AgentS) (priority : String)
    (shuffle : List AgentS → List AgentS)
    (hperm : (orderAgents priority shuffle agents).Perm agents)
    (ag : AgentS) (hag : ag ∈ agents) :
    (dlookup (prioritized_planning grid agents priority shuffle) ag.id).isSome := by
  simp only [prioritized_planning]
  rw [dlookup_padPlans]
  rw [Option.isSome_map']
  exact planLoop_covers grid (orderAgents priority shuffle agents) ([], [], [], 0) ag
    (hperm.mem_iff.mpr hag)

theorem dlookup_agent_starts (agents : List AgentS) (ag : AgentS) (h : ag ∈ agents) :
    (dlookup (agents.map fun a => (a.id, ([a.start] : Path))) ag.id).isSome := by
  induction agents with
  | nil => simp at h
  | cons a rest ih =>
    rcases List.mem_cons.mp h with rfl | h
    · show (dlookup ((ag.id, ([ag.start] : Path)) :: rest.map fun a =>
        (a.id, ([a.start] : Path))) ag.id).isSome = true
      simp [dlookup]
    · show (dlookup ((a.id, ([a.start] : Path)) :: rest.map fun a =>
        (a.id, ([a.start] : Path))) ag.id).isSome = true
      by_cases hk : a.id = ag.id
      · simp [dlookup, hk]
      · simp only [dlookup, hk, if_false]
        exact ih h

theorem cbsPeek_cover (agents : List AgentS) (openl : List CBSEntry)
    (hcov : NodesCover agents openl) (hne : openl ≠ []) :
    ∀ ag ∈ agents, (dlookup (cbsPeek openl) ag.id).isSome := by
  intro ag hag
  unfold cbsPeek
  rcases hpop : heappop cbsEntryLe openl with _ | ⟨e, rest⟩
  · exact absurd ((heappop_eq_none cbsEntryLe openl).mp hpop) hne
  · show (dlookup e.2.2.paths ag.id).isSome = true
    exact hcov e (heappop_mem cbsEntryLe openl e rest hpop) ag hag

theorem mkVertexChild_cover (grid : Grid) (agents : List AgentS) (maxCons : Nat)
    (node : CBSNodeL) (aid : Nat) (pos : Pos) (t : Nat) (n : CBSNodeL)
    (h : mkVertexChild grid agents maxCons node aid pos t = some n)
    (hnode : ∀ ag ∈ agents, (dlookup node.paths ag.id).isSome) :
    ∀ ag ∈ agents, (dlookup n.paths ag.id).isSome := by
  simp only [mkVertexChild] at h
  split at h
  · split at h
    · exact absurd h (by simp)
    · injection h with h'
      subst h'
      intro ag hag
      exact isSome_dlookup_dinsert _ _ _ _ (hnode ag hag)
  · exact absurd h (by simp)

theorem mkEdgeChild_cover (grid : Grid) (agents : List AgentS) (maxCons : Nat)
    (node : CBSNodeL) (aid : Nat) (u v : Pos) (t : Nat) (n : CBSNodeL)
    (h : mkEdgeChild grid agents maxCons node aid u v t = some n)
    (hnode : ∀ ag ∈ agents, (dlookup node.paths ag.id).isSome) :
    ∀ ag ∈ agents, (dlookup n.paths ag.id).isSome := by
  simp only [mkEdgeChild] at h
  split at h
  · split at h
    · exact absurd h (by simp)
    · injection h with h'
      subst h'
      intro ag hag
      exact isSome_dlookup_dinsert _ _ _ _ (hnode ag hag)
  · exact absurd h (by simp)

theorem pushChild_cover (agents : List AgentS) (openl : List CBSEntry) (counter : Nat)
    (c : Option CBSNodeL) (hcov : NodesCover agents openl)
    (hc : ∀ n, c = some n → ∀ ag ∈ agents, (dlookup n.paths ag.id).isSome) :
    NodesCover agents (pushChild openl counter c).1 := by
  cases c with
  | none => exact hcov
  | some n =>
    intro e he
    rcases List.mem_cons.mp he with rfl | he
    · exact hc n rfl
    · exact hcov e he

theorem cbsRootLoop_cover (grid : Grid) (fallback : String) :
    ∀ (rem : List AgentS) (acc : List (Nat × Path)) (res : List (Nat × Path)),
      cbsRootLoop grid fallback rem acc = some res →
      ∀ ag : AgentS, (ag ∈ rem ∨ (dlookup acc ag.id).isSome) →
        (dlookup res ag.id).isSome := by
  intro rem
  induction rem with
  | nil =>
    intro acc res h ag hag
    obtain rfl : acc = res := by injection h
    rcases hag with hag | hag
    · simp at hag
    · exact hag
  | cons a rest ih =>
    intro acc res h ag hag
    simp only [cbsRootLoop] at h
    rcases hll : low_level_search grid a.start a.goal a.id [] 1000 with _ | p
    · rw [hll] at h
      by_cases hfb : fallback = "prioritized"
      · rw [if_pos hfb] at h
        exact absurd h (by simp)
      · rw [if_neg hfb] at h
        apply ih _ _ h ag
        rcases hag with hag | hag
        · rcases List.mem_cons.mp hag with rfl | hag
          · exact Or.inr (by rw [dlookup_dinsert_self]; rfl)
          · exact Or.inl hag
        · exact Or.inr (isSome_dlookup_dinsert _ _ _ _ hag)
    · rw [hll] at h
      apply ih _ _ h ag
      rcases hag with hag | hag
      · rcases List.mem_cons.mp hag with rfl | hag
        · exact Or.inr (by rw [dlookup_dinsert_self]; rfl)
        · exact Or.inl hag
      · exact Or.inr (isSome_dlookup_dinsert _ _ _ _ hag)

theorem cbsLoop_guarded (grid : Grid) (agents : List AgentS) (timeoutO : Nat → Bool)
    (maxCons : Nat) (fallback ppPriority : String)
    (shuffle : List AgentS → List AgentS)
    (hpp : (orderAgents ppPriority shuffle agents).Perm agents) :
    ∀ (budget : Nat) (openl : List CBSEntry) (counter it : Nat)
      (reason : CBSReason) (res : List (Nat × Path)),
      NodesCover agents openl →
      cbsLoop grid agents timeoutO maxCons fallback ppPriority shuffle
        budget openl counter it = (reason, res) →
      (reason = CBSReason.timeout ∨ reason = CBSReason.nodeLimit ∨
        reason = CBSReason.exhausted) →
      (fallback = "prioritized" →
        res = prioritized_planning grid agents ppPriority shuffle) ∧
        (∀ ag ∈ agents, (dlookup res ag.id).isSome) := by
  intro budget
  induction budget with
  | zero =>
    intro openl counter it reason res hcov hrun _
    rw [cbsLoop] at hrun
    by_cases hopen : openl = []
    · rw [if_pos hopen] at hrun
      injection hrun with hr1 hr2
      subst hr2
      constructor
      · intro hfb
        rw [if_pos hfb]
      · by_cases hfb : fallback = "prioritized"
        · rw [if_pos hfb]
          exact fun ag hag => prioritized_covers grid agents ppPriority shuffle hpp ag hag
        · rw [if_neg hfb, if_neg (by simp [hopen])]
          exact fun ag hag => dlookup_agent_starts agents ag hag
    · rw [if_neg hopen] at hrun
      by_cases htime : timeoutO it = true
      · rw [if_pos htime] at hrun
        injection hrun with hr1 hr2
        subst hr2
        constructor
        · intro hfb
          rw [if_pos hfb]
        · by_cases hfb : fallback = "prioritized"
          · rw [if_pos hfb]
            exact fun ag hag => prioritized_covers grid agents ppPriority shuffle hpp ag hag
          · rw [if_neg hfb]
            exact cbsPeek_cover agents openl hcov hopen
      · rw [if_neg htime] at hrun
        injection hrun with hr1 hr2
        subst hr2
        constructor
        · intro hfb
          rw [if_pos hfb]
        · by_cases hfb : fallback = "prioritized"
          · rw [if_pos hfb]
            exact fun ag hag => prioritized_covers grid agents ppPriority shuffle hpp ag hag
          · rw [if_neg hfb]
            exact cbsPeek_cover agents openl hcov hopen
  | succ b ih =>
    intro openl counter it reason res hcov hrun hreason
    rw [cbsLoop] at hrun
    by_cases hopen : openl = []
    · rw [if_pos hopen] at hrun
      injection hrun with hr1 hr2
      subst hr2
      constructor
      · intro hfb
        rw [if_pos hfb]
      · by_cases hfb : fallback = "prioritized"
        · rw [if_pos hfb]
          exact fun ag hag => prioritized_covers grid agents ppPriority shuffle hpp ag hag
        · rw [if_neg hfb, if_neg (by simp [hopen])]
          exact fun ag hag => dlookup_agent_starts agents ag hag
    · rw [if_neg hopen] at hrun
      by_cases htime : timeoutO it = true
      · rw [if_pos htime] at hrun
        injection hrun with hr1 hr2
        subst hr2
        constructor
        · intro hfb
          rw [if_pos hfb]
        · by_cases hfb : fallback = "prioritized"
          · rw [if_pos hfb]
            exact fun ag hag => prioritized_covers grid agents ppPriority shuffle hpp ag hag
          · rw [if_neg hfb]
            exact cbsPeek_cover agents openl hcov hopen
      · rw [if_neg htime] at hrun
        rcases hpop : heappop cbsEntryLe openl with _ | ⟨e, rest⟩
        · exact absurd ((heappop_eq_none cbsEntryLe openl).mp hpop) hopen
        · rw [hpop] at hrun
          dsimp only at hrun
          have hemem : e ∈ openl := heappop_mem cbsEntryLe openl e rest hpop
          have hrestcov : NodesCover agents rest :=
            fun x hx => hcov x (heappop_rest_mem cbsEntryLe openl e rest hpop x hx)
          have hecov : ∀ ag ∈ agents, (dlookup e.2.2.paths ag.id).isSome :=
            hcov e hemem
          rcases hconf : detect_first_conflict e.2.2.paths with _ | c
          · rw [hconf] at hrun
            injection hrun with hr1 hr2
            subst hr1
            rcases hreason with h | h | h <;> exact absurd h (by simp)
          · rw [hconf] at hrun
            cases c with
            | vertex t a1 a2 pos =>
              apply ih _ _ _ reason res _ hrun hreason
              apply pushChild_cover
              · apply pushChild_cover agents rest counter _ hrestcov
                intro n hn
                exact mkVertexChild_cover grid agents maxCons e.2.2 a1 pos t n hn hecov
              · intro n hn
                exact mkVertexChild_cover grid agents maxCons e.2.2 a2 pos t n hn hecov
            | edge t a1 a2 u v =>
              apply ih _ _ _ reason res _ hrun hreason
              apply pushChild_cover
              · apply pushChild_cover agents rest counter _ hrestcov
                intro n hn
                exact mkEdgeChild_cover grid agents maxCons e.2.2 a1 u v t n hn hecov
              · intro n hn
                exact mkEdgeChild_cover grid agents maxCons e.2.2 a2 v u t n hn hecov

/-- C8: whenever the CBS high-level loop stops because the wall-clock budget
was exceeded, the node budget was reached, or the open set emptied, the
returned value is a well-formed map holding a path for every agent id (the
embedded loop is a total function, so no exception can be raised); and when
`fallback = "prioritized"` that value is exactly
`prioritized_planning grid agents pp_priority`. -/
theorem claim_C8 (grid : Grid) (agents : List AgentS) (timeoutO : Nat → Bool)
    (nodeLimit maxCons : Nat) (fallback ppPriority : String)
    (shuffle : List AgentS → List AgentS)
    (hpp : (orderAgents ppPriority shuffle agents).Perm agents)
    (reason : CBSReason) (res : List (Nat × Path))
    (hrun : cbsRun grid agents timeoutO nodeLimit maxCons fallback ppPriority shuffle =
      (reason, res))
    (hreason : reason = CBSReason.timeout ∨ reason = CBSReason.nodeLimit ∨
      reason = CBSReason.exhausted) :
    (fallback = "prioritized" →
      res = prioritized_planning grid agents ppPriority shuffle) ∧
      (∀ ag ∈ agents, (dlookup res ag.id).isSome) := by
  unfold cbsRun at hrun
  rcases hroot : cbsRootLoop grid fallback agents [] with _ | rootPaths
  · rw [hroot] at hrun
    injection hrun with hr1 hr2
    subst hr1
    rcases hreason with h | h | h <;> exact absurd h (by simp)
  · rw [hroot] at hrun
    have hrootcov : ∀ ag ∈ agents, (dlookup rootPaths ag.id).isSome := by
      intro ag hag
      exact cbsRootLoop_cover grid fallback agents [] rootPaths hroot ag (Or.inl hag)
    apply cbsLoop_guarded grid agents timeoutO maxCons fallback ppPriority shuffle hpp
      nodeLimit _ 1 0 reason res _ hrun hreason
    intro e he ag hag
    simp only [List.mem_singleton] at he
    subst he
    exact hrootcov ag hag

/-- C8 (witness): with an immediately-true timeout oracle on the corridor
instance, CBS stops with reason `timeout` and returns exactly the
prioritized fallback, which holds a path for both agents. -/
theorem claim_C8_witness :
    cbsRun cwGrid cwAgents (fun _ => true) 1000 50 "prioritized" "id" (fun l => l) =
      (CBSReason.timeout, prioritized_planning cwGrid cwAgents "id" (fun l => l)) ∧
    (("prioritized" = "prioritized" →
        prioritized_planning cwGrid cwAgents "id" (fun l => l) =
          prioritized_planning cwGrid cwAgents "id" (fun l => l)) ∧
      ∀ ag ∈ cwAgents,
        (dlookup (prioritized_planning cwGrid cwAgents "id" (fun l => l)) ag.id).isSome) := by
  have hperm : (orderAgents "id" (fun l => l) cwAgents).Perm cwAgents := by
    rw [show orderAgents "id" (fun l => l) cwAgents = cwAgents from rfl]
  refine ⟨by decide, ?_⟩
  exact claim_C8 cwGrid cwAgents (fun _ => true) 1000 50 "prioritized" "id" (fun l => l)
    hperm CBSReason.timeout (prioritized_planning cwGrid cwAgents "id" (fun l => l))
    (by decide) (Or.inl rfl)

/-! ### Support for the greedy task-allocation claim -/

theorem selectLoop_skip_iff (taken : List Nat) (tk : TaskS) :
    (tk.task_id ∈ taken ∨ tk.completed = true) ↔ ¬ eligibleT taken tk := by
  unfold eligibleT
  rcases tk.completed with _ | _ <;> simp

theorem selectLoop_none_iff (apos : Pos) (taken : List Nat) :
    ∀ (ts : List TaskS) (acc : Option (TaskS × Nat)),
      selectLoop apos taken acc ts = none ↔
        (acc = none ∧ ∀ tk ∈ ts, ¬ eligibleT taken tk) := by
  intro ts
  induction ts with
  | nil =>
    intro acc
    constructor
    · intro h
      exact ⟨h, by simp⟩
    · intro h
      exact h.1
  | cons tk rest ih =>
    intro acc
    by_cases hskip : tk.task_id ∈ taken ∨ tk.completed = true
    · rw [show selectLoop apos taken acc (tk :: rest) = selectLoop apos taken acc rest by
        simp only [selectLoop]
        rw [if_pos hskip]]
      rw [ih]
      constructor
      · rintro ⟨h1, h2⟩
        refine ⟨h1, ?_⟩
        intro tk' htk'
        rcases List.mem_cons.mp htk' with rfl | htk'
        · exact (selectLoop_skip_iff taken tk').mp hskip
        · exact h2 tk' htk'
      · rintro ⟨h1, h2⟩
        exact ⟨h1, fun tk' htk' => h2 tk' (List.mem_cons_of_mem tk htk')⟩
    · have helig : eligibleT taken tk := by
        by_contra hc
        exact hskip ((selectLoop_skip_iff taken tk).mpr hc)
      have hcond : ¬(tk.task_id ∈ taken ∨ tk.completed = true) := hskip
      constructor
      · intro h
        exfalso
        have hstep : ∀ b0 : TaskS × Nat, selectLoop apos taken (some b0) rest ≠ none := by
          intro b0 hc
          exact absurd ((ih (some b0)).mp hc).1 (by simp)
        rcases acc with _ | ⟨b0, d0⟩
        · rw [show selectLoop apos taken none (tk :: rest) =
              selectLoop apos taken (some (tk, manhattan apos tk.pos)) rest by
            simp only [selectLoop]
            rw [if_neg hcond]] at h
          exact hstep _ h
        · by_cases hd : manhattan apos tk.pos < d0
          · rw [show selectLoop apos taken (some (b0, d0)) (tk :: rest) =
                selectLoop apos taken (some (tk, manhattan apos tk.pos)) rest by
              simp only [selectLoop]
              rw [if_neg hcond, if_pos hd]] at h
            exact hstep _ h
          · rw [show selectLoop apos taken (some (b0, d0)) (tk :: rest) =
                selectLoop apos taken (some (b0, d0)) rest by
              simp only [selectLoop]
              rw [if_neg hcond, if_neg hd]] at h
            exact hstep _ h
      · rintro ⟨h1, h2⟩
        exact absurd helig (h2 tk (List.mem_cons_self tk rest))

theorem selectLoop_acc_some (apos : Pos) (taken : List Nat) :
    ∀ (ts : List TaskS) (b0 : TaskS) (d0 : Nat) (bt : TaskS) (bd : Nat),
      selectLoop apos taken (some (b0, d0)) ts = some (bt, bd) →
      ((bt = b0 ∧ bd = d0 ∧ ∀ tk ∈ ts, eligibleT taken tk →
          ¬(manhattan apos tk.pos < d0)) ∨
        (∃ pre post, ts = pre ++ bt :: post ∧ eligibleT taken bt ∧
          bd = manhattan apos bt.pos ∧ bd < d0 ∧
          (∀ tk ∈ pre, eligibleT taken tk → bd < manhattan apos tk.pos) ∧
          (∀ tk ∈ post, eligibleT taken tk → bd ≤ manhattan apos tk.pos))) := by
  intro ts
  induction ts with
  | nil =>
    intro b0 d0 bt bd h
    simp only [selectLoop] at h
    injection h with h'
    injection h' with h1 h2
    exact Or.inl ⟨h1.symm, h2.symm, by simp⟩
  | cons tk rest ih =>
    intro b0 d0 bt bd h
    by_cases hskip : tk.task_id ∈ taken ∨ tk.completed = true
    · rw [show selectLoop apos taken (some (b0, d0)) (tk :: rest) =
          selectLoop apos taken (some (b0, d0)) rest by
        simp only [selectLoop]
        rw [if_pos hskip]] at h
      have hnelig : ¬ eligibleT taken tk := (selectLoop_skip_iff taken tk).mp hskip
      rcases ih b0 d0 bt bd h with ⟨h1, h2, h3⟩ | ⟨pre, post, hsplit, h2, h3, h4, h5, h6⟩
      · refine Or.inl ⟨h1, h2, ?_⟩
        intro tk' htk'
        rcases List.mem_cons.mp htk' with rfl | htk'
        · intro hc; exact absurd hc (fun _ => hnelig hc)
        · exact h3 tk' htk'
      · refine Or.inr ⟨tk :: pre, post, by rw [hsplit]; rfl, h2, h3, h4, ?_, h6⟩
        intro tk' htk'
        rcases List.mem_cons.mp htk' with rfl | htk'
        · exact fun hc => absurd hc hnelig
        · exact h5 tk' htk'
    · have helig : eligibleT taken tk := by
        by_contra hc
        exact hskip ((selectLoop_skip_iff taken tk).mpr hc)
      have hcond : ¬(tk.task_id ∈ taken ∨ tk.completed = true) := hskip
      by_cases hd : manhattan apos tk.pos < d0
      · rw [show selectLoop apos taken (some (b0, d0)) (tk :: rest) =
            selectLoop apos taken (some (tk, manhattan apos tk.pos)) rest by
          simp only [selectLoop]
          rw [if_neg hcond, if_pos hd]] at h
        rcases ih tk (manhattan apos tk.pos) bt bd h with
          ⟨h1, h2, h3⟩ | ⟨pre, post, hsplit, h2, h3, h4, h5, h6⟩
        · subst h1
          refine Or.inr ⟨[], rest, rfl, helig, h2, by omega, by simp, ?_⟩
          intro tk' htk' helig'
          have := h3 tk' htk' helig'
          omega
        · refine Or.inr ⟨tk :: pre, post, by rw [hsplit]; rfl, h2, h3, by omega, ?_, h6⟩
          intro tk' htk'
          rcases List.mem_cons.mp htk' with rfl | htk'
          · intro _; omega
          · exact h5 tk' htk'
      · rw [show selectLoop apos taken (some (b0, d0)) (tk :: rest) =
            selectLoop apos taken (some (b0, d0)) rest by
          simp only [selectLoop]
          rw [if_neg hcond, if_neg hd]] at h
        rcases ih b0 d0 bt bd h with ⟨h1, h2, h3⟩ | ⟨pre, post, hsplit, h2, h3, h4, h5, h6⟩
        · refine Or.inl ⟨h1, h2, ?_⟩
          intro tk' htk'
          rcases List.mem_cons.mp htk' with rfl | htk'
          · intro _; exact hd
          · exact h3 tk' htk'
        · refine Or.inr ⟨tk :: pre, post, by rw [hsplit]; rfl, h2, h3, h4, ?_, h6⟩
          intro tk' htk'
          rcases List.mem_cons.mp htk' with rfl | htk'
          · intro _; omega
          · exact h5 tk' htk'

theorem selectLoop_some (apos : Pos) (taken : List Nat) :
    ∀ (ts : List TaskS) (bt : TaskS) (bd : Nat),
      selectLoop apos taken none ts = some (bt, bd) →
      ∃ pre post, ts = pre ++ bt :: post ∧ eligibleT taken bt ∧
        bd = manhattan apos bt.pos ∧
        (∀ tk ∈ pre, eligibleT taken tk → bd < manhattan apos tk.pos) ∧
        (∀ tk ∈ post, eligibleT taken tk → bd ≤ manhattan apos tk.pos) := by
  intro ts
  induction ts with
  | nil =>
    intro bt bd h
    simp [selectLoop] at h
  | cons tk rest ih =>
    intro bt bd h
    by_cases hskip : tk.task_id ∈ taken ∨ tk.completed = true
    · rw [show selectLoop apos taken none (tk :: rest) =
          selectLoop apos taken none rest by
        simp only [selectLoop]
        rw [if_pos hskip]] at h
      have hnelig : ¬ eligibleT taken tk := (selectLoop_skip_iff taken tk).mp hskip
      obtain ⟨pre, post, hsplit, h2, h3, h4, h5⟩ := ih bt bd h
      refine ⟨tk :: pre, post, by rw [hsplit]; rfl, h2, h3, ?_, h5⟩
      intro tk' htk'
      rcases List.mem_cons.mp htk' with rfl | htk'
      · exact fun hc => absurd hc hnelig
      · exact h4 tk' htk'
    · have helig : eligibleT taken tk := by
        by_contra hc
        exact hskip ((selectLoop_skip_iff taken tk).mpr hc)
      have hcond : ¬(tk.task_id ∈ taken ∨ tk.completed = true) := hskip
      rw [show selectLoop apos taken none (tk :: rest) =
          selectLoop apos taken (some (tk, manhattan apos tk.pos)) rest by
        simp only [selectLoop]
        rw [if_neg hcond]] at h
      rcases selectLoop_acc_some apos taken rest tk (manhattan apos tk.pos) bt bd h with
        ⟨h1, h2, h3⟩ | ⟨pre, post, hsplit, h2, h3, h4, h5, h6⟩
      · subst h1
        refine ⟨[], rest, rfl, helig, h2, by simp, ?_⟩
        intro tk' htk' helig'
        have := h3 tk' htk' helig'
        omega
      · refine ⟨tk :: pre, post, by rw [hsplit]; rfl, h2, h3, ?_, h6⟩
        intro tk' htk'
        rcases List.mem_cons.mp htk' with rfl | htk'
        · intro _; omega
        · exact h5 tk' htk'

theorem dinsert_append_of_none {κ β : Type} [DecidableEq κ] :
    ∀ (d : List (κ × β)) (k : κ) (v : β), dlookup d k = none →
      dinsert d k v = d ++ [(k, v)] := by
  intro d
  induction d with
  | nil => intro k v _; rfl
  | cons pr rest ih =>
    intro k v h
    obtain ⟨k', v'⟩ := pr
    simp only [dlookup] at h
    by_cases hk : k' = k
    · rw [if_pos hk] at h
      exact absurd h (by simp)
    · rw [if_neg hk] at h
      simp only [dinsert, hk, if_false, List.cons_append]
      rw [ih k v h]

theorem isSome_dlookup_dinsert_inv {κ β : Type} [DecidableEq κ]
    (d : List (κ × β)) (k : κ) (v : β) (key : κ)
    (h : (dlookup (dinsert d k v) key).isSome) :
    key = k ∨ (dlookup d key).isSome := by
  rw [dlookup_dinsert] at h
  by_cases hk : k = key
  · exact Or.inl hk.symm
  · rw [if_neg hk] at h
    exact Or.inr h

theorem greedyPair_append (tasks : List TaskS) :
    ∀ (l1 l2 : List AgentPos) (assign : List (Nat × Nat)) (taken : List Nat),
      greedyPair tasks (l1 ++ l2) assign taken =
        greedyPair tasks l2 (greedyPair tasks l1 assign taken).1
          (greedyPair tasks l1 assign taken).2 := by
  intro l1
  induction l1 with
  | nil => intro l2 assign taken; rfl
  | cons a rest ih =>
    intro l2 assign taken
    show greedyPair tasks (a :: (rest ++ l2)) assign taken = _
    simp only [greedyPair]
    rcases hsel : selectLoop a.pos taken none tasks with _ | ⟨bt, bd⟩
    · exact ih l2 assign taken
    · exact ih l2 (dinsert assign a.unique_id bt.task_id) (bt.task_id :: taken)

theorem greedyPair_lookup_none (tasks : List TaskS) :
    ∀ (l : List AgentPos) (assign : List (Nat × Nat)) (taken : List Nat) (k : Nat),
      (∀ a ∈ l, a.unique_id ≠ k) →
      dlookup (greedyPair tasks l assign taken).1 k = dlookup assign k := by
  intro l
  induction l with
  | nil => intro assign taken k _; rfl
  | cons a rest ih =>
    intro assign taken k hne
    simp only [greedyPair]
    rcases hsel : selectLoop a.pos taken none tasks with _ | ⟨bt, bd⟩
    · exact ih assign taken k (fun x hx => hne x (List.mem_cons_of_mem a hx))
    · rw [ih _ _ k (fun x hx => hne x (List.mem_cons_of_mem a hx))]
      exact dlookup_dinsert_ne assign a.unique_id bt.task_id k
        (hne a (List.mem_cons_self a rest))

theorem greedyPair_lookup_isSome (tasks : List TaskS) :
    ∀ (l : List AgentPos) (assign : List (Nat × Nat)) (taken : List Nat) (k : Nat),
      (dlookup (greedyPair tasks l assign taken).1 k).isSome →
      (dlookup assign k).isSome ∨ ∃ a ∈ l, a.unique_id = k := by
  intro l
  induction l with
  | nil => intro assign taken k h; exact Or.inl h
  | cons a rest ih =>
    intro assign taken k h
    simp only [greedyPair] at h
    rcases hsel : selectLoop a.pos taken none tasks with _ | ⟨bt, bd⟩
    · rw [hsel] at h
      rcases ih assign taken k h with h1 | ⟨x, hx, hid⟩
      · exact Or.inl h1
      · exact Or.inr ⟨x, List.mem_cons_of_mem a hx, hid⟩
    · rw [hsel] at h
      rcases ih _ _ k h with h1 | ⟨x, hx, hid⟩
      · rcases isSome_dlookup_dinsert_inv assign a.unique_id bt.task_id k h1 with h2 | h2
        · exact Or.inr ⟨a, List.mem_cons_self a rest, h2.symm⟩
        · exact Or.inl h2
      · exact Or.inr ⟨x, List.mem_cons_of_mem a hx, hid⟩

theorem greedyPair_taken (tasks : List TaskS) :
    ∀ (l : List AgentPos) (assign : List (Nat × Nat)) (taken : List Nat),
      (∀ a ∈ l, dlookup assign a.unique_id = none) →
      ((l.map fun a => a.unique_id).Nodup) →
      (∀ x, x ∈ taken ↔ x ∈ assign.map Prod.snd) →
      ∀ x, x ∈ (greedyPair tasks l assign taken).2 ↔
        x ∈ (greedyPair tasks l assign taken).1.map Prod.snd := by
  intro l
  induction l with
  | nil => intro assign taken _ _ hiff x; exact hiff x
  | cons a rest ih =>
    intro assign taken hnone hnd hiff x
    simp only [greedyPair]
    rcases hsel : selectLoop a.pos taken none tasks with _ | ⟨bt, bd⟩
    · exact ih assign taken (fun y hy => hnone y (List.mem_cons_of_mem a hy))
        (by simp only [List.map_cons, List.nodup_cons] at hnd; exact hnd.2) hiff x
    · apply ih
      · intro y hy
        rw [dlookup_dinsert_ne]
        · exact hnone y (List.mem_cons_of_mem a hy)
        · simp only [List.map_cons, List.nodup_cons] at hnd
          intro hc
          exact hnd.1 (hc ▸ List.mem_map_of_mem (fun z => z.unique_id) hy)
      · simp only [List.map_cons, List.nodup_cons] at hnd
        exact hnd.2
      · intro y
        rw [dinsert_append_of_none assign a.unique_id bt.task_id
          (hnone a (List.mem_cons_self a rest))]
        simp only [List.map_append, List.mem_append, List.map_cons, List.map_nil,
          List.mem_cons, List.mem_singleton, List.not_mem_nil, or_false]
        constructor
        · intro hy
          rcases hy with rfl | hy
          · right; rfl
          · left; exact (hiff y).mp hy
        · intro hy
          rcases hy with hy | hy
          · exact Or.inr ((hiff y).mpr hy)
          · exact Or.inl hy

theorem greedyPair_values_nodup (tasks : List TaskS) :
    ∀ (l : List AgentPos) (assign : List (Nat × Nat)) (taken : List Nat),
      (∀ a ∈ l, dlookup assign a.unique_id = none) →
      ((l.map fun a => a.unique_id).Nodup) →
      (∀ x, x ∈ taken ↔ x ∈ assign.map Prod.snd) →
      (assign.map Prod.snd).Nodup →
      ((greedyPair tasks l assign taken).1.map Prod.snd).Nodup := by
  intro l
  induction l with
  | nil => intro assign taken _ _ _ h; exact h
  | cons a rest ih =>
    intro assign taken hnone hnd hiff hvals
    simp only [greedyPair]
    rcases hsel : selectLoop a.pos taken none tasks with _ | ⟨bt, bd⟩
    · exact ih assign taken (fun y hy => hnone y (List.mem_cons_of_mem a hy))
        (by simp only [List.map_cons, List.nodup_cons] at hnd; exact hnd.2) hiff hvals
    · obtain ⟨_, _, _, helig, _⟩ := selectLoop_some a.pos taken tasks bt bd hsel
      apply ih
      · intro y hy
        rw [dlookup_dinsert_ne]
        · exact hnone y (List.mem_cons_of_mem a hy)
        · simp only [List.map_cons, List.nodup_cons] at hnd
          intro hc
          exact hnd.1 (hc ▸ List.mem_map_of_mem (fun z => z.unique_id) hy)
      · simp only [List.map_cons, List.nodup_cons] at hnd
        exact hnd.2
      · intro y
        rw [dinsert_append_of_none assign a.unique_id bt.task_id
          (hnone a (List.mem_cons_self a rest))]
        simp only [List.map_append, List.mem_append, List.map_cons, List.map_nil,
          List.mem_cons, List.mem_singleton, List.not_mem_nil, or_false]
        constructor
        · intro hy
          rcases hy with rfl | hy
          · right; rfl
          · left; exact (hiff y).mp hy
        · intro hy
          rcases hy with hy | hy
          · exact Or.inr ((hiff y).mpr hy)
          · exact Or.inl hy
      · rw [dinsert_append_of_none assign a.unique_id bt.task_id
          (hnone a (List.mem_cons_self a rest))]
        rw [List.map_append]
        rw [List.nodup_append]
        refine ⟨hvals, by simp, ?_⟩
        intro y hy
        simp only [List.map_cons, List.map_nil, List.mem_singleton, List.mem_cons,
          List.not_mem_nil, or_false]
        intro hc
        apply helig.1
        rw [hc] at hy
        exact (hiff bt.task_id).mpr hy

/-- C10 (counterexample): the claim says distance ties are broken in favour
of the smallest task id.  With one agent at (0,0) and tasks listed as
`[id 5 at (1,0), id 2 at (0,1)]`, both at manhattan distance 1, the code
keeps the FIRST-listed task (id 5), not the smaller id 2: the inner loop
only replaces the incumbent on a strict distance improvement, so ties go to
list order. -/
theorem claim_C10_counterexample :
    greedy_assignment [⟨0, (0, 0)⟩] [⟨5, (1, 0), false⟩, ⟨2, (0, 1), false⟩] = [(0, 5)] ∧
      manhattan (0, 0) (1, 0) = manhattan (0, 0) (0, 1) ∧ (2 : Nat) < 5 :=
  ⟨by decide, by decide, by decide⟩

/-- C10 (amended): `greedy_assignment` processes agents in list order and
assigns each the still-unclaimed, uncompleted task at minimum manhattan
distance, with distance ties broken in favour of the task occurring EARLIEST
in the tasks list (equivalently: smallest id only when the task list is
sorted by id); the returned map never assigns a task twice, and an agent is
absent from the map exactly when no eligible task remains at its turn.
Formally (for pairwise-distinct agent ids): the assigned values are nodup;
and for every split `agents = pre ++ ag :: post`, with `s1` the
`(assignment, taken)` state after the prefix, the taken set equals the tasks
assigned so far, `ag` is unassigned iff every task is claimed or completed,
and an assigned task is eligible, of minimal distance, with every eligible
task listed strictly earlier being strictly farther. -/
theorem claim_C10_amended (agents : List AgentPos) (tasks : List TaskS)
    (hids : (agents.map fun a => a.unique_id).Nodup) :
    ((greedy_assignment agents tasks).map Prod.snd).Nodup ∧
    ∀ (pre : List AgentPos) (ag : AgentPos) (post : List AgentPos),
      agents = pre ++ ag :: post →
      (∀ x, x ∈ (greedyPair tasks pre [] []).2 ↔
        x ∈ (greedyPair tasks pre [] []).1.map Prod.snd) ∧
      (dlookup (greedy_assignment agents tasks) ag.unique_id = none ↔
        ∀ tk ∈ tasks, tk.task_id ∈ (greedyPair tasks pre [] []).2 ∨
          tk.completed = true) ∧
      (∀ tid, dlookup (greedy_assignment agents tasks) ag.unique_id = some tid →
        ∃ bt pre' post', tasks = pre' ++ bt :: post' ∧ tid = bt.task_id ∧
          bt.task_id ∉ (greedyPair tasks pre [] []).2 ∧ bt.completed = false ∧
          (∀ tk ∈ pre', tk.task_id ∉ (greedyPair tasks pre [] []).2 ∧
            tk.completed = false →
            manhattan ag.pos bt.pos < manhattan ag.pos tk.pos) ∧
          (∀ tk ∈ post', tk.task_id ∉ (greedyPair tasks pre [] []).2 ∧
            tk.completed = false →
            manhattan ag.pos bt.pos ≤ manhattan ag.pos tk.pos)) := by
  constructor
  · exact greedyPair_values_nodup tasks agents [] [] (fun a _ => rfl) hids
      (by simp [dlookup]) (by simp)
  · intro pre ag post hsplit
    subst hsplit
    have hids' := hids
    rw [List.map_append, List.nodup_append] at hids'
    obtain ⟨hpre_nd, hcons_nd, hdisj⟩ := hids'
    have hag_pre : ∀ a ∈ pre, a.unique_id ≠ ag.unique_id := by
      intro a ha hc
      exact hdisj (List.mem_map_of_mem (fun z => z.unique_id) ha)
        (by rw [hc]; simp)
    have hag_post : ∀ a ∈ post, a.unique_id ≠ ag.unique_id := by
      intro a ha hc
      simp only [List.map_cons, List.nodup_cons] at hcons_nd
      exact hcons_nd.1 (by rw [← hc]; exact List.mem_map_of_mem (fun z => z.unique_id) ha)
    have htaken := greedyPair_taken tasks pre [] [] (fun a _ => rfl) hpre_nd (by simp [dlookup])
    have hs1none : dlookup (greedyPair tasks pre [] []).1 ag.unique_id = none := by
      rcases hlk : dlookup (greedyPair tasks pre [] []).1 ag.unique_id with _ | v
      · rfl
      · exfalso
        have : (dlookup (greedyPair tasks pre [] []).1 ag.unique_id).isSome := by
          rw [hlk]; rfl
        rcases greedyPair_lookup_isSome tasks pre [] [] ag.unique_id this with h1 | ⟨a, ha, hid⟩
        · simp [dlookup] at h1
        · exact hag_pre a ha hid
    have hr : greedy_assignment (pre ++ ag :: post) tasks =
        (greedyPair tasks (ag :: post) (greedyPair tasks pre [] []).1
          (greedyPair tasks pre [] []).2).1 := by
      unfold greedy_assignment
      rw [greedyPair_append]
    refine ⟨htaken, ?_, ?_⟩
    · -- absence characterization
      rcases hsel : selectLoop ag.pos (greedyPair tasks pre [] []).2 none tasks with _ | ⟨bt, bd⟩
      · have hlook : dlookup (greedy_assignment (pre ++ ag :: post) tasks) ag.unique_id
            = none := by
          rw [hr]
          simp only [greedyPair]
          rw [hsel]
          rw [greedyPair_lookup_none tasks post _ _ _ hag_post]
          exact hs1none
        have hne := ((selectLoop_none_iff ag.pos (greedyPair tasks pre [] []).2
          tasks none).mp hsel).2
        constructor
        · intro _ tk htk
          have hni := hne tk htk
          by_cases h1 : tk.task_id ∈ (greedyPair tasks pre [] []).2
          · exact Or.inl h1
          · right
            rcases hb : tk.completed with _ | _
            · exact absurd ⟨h1, hb⟩ hni
            · rfl
        · intro _
          exact hlook
      · obtain ⟨pre', post', hts, helig, hbd, hpre', hpost'⟩ :=
          selectLoop_some ag.pos (greedyPair tasks pre [] []).2 tasks bt bd hsel
        have hlook : dlookup (greedy_assignment (pre ++ ag :: post) tasks) ag.unique_id
            = some bt.task_id := by
          rw [hr]
          simp only [greedyPair]
          rw [hsel]
          rw [greedyPair_lookup_none tasks post _ _ _ hag_post]
          exact dlookup_dinsert_self _ _ _
        rw [hlook]
        constructor
        · intro h
          exact absurd h (by simp)
        · intro hall
          exfalso
          have hbtmem : bt ∈ tasks := by
            rw [hts]
            exact List.mem_append_right pre' (List.mem_cons_self bt post')
          rcases hall bt hbtmem with h | h
          · exact helig.1 h
          · rw [helig.2] at h
            exact Bool.noConfusion h
    · -- assignment characterization
      rcases hsel : selectLoop ag.pos (greedyPair tasks pre [] []).2 none tasks with _ | ⟨bt, bd⟩
      · intro tid htid
        have hlook : dlookup (greedy_assignment (pre ++ ag :: post) tasks) ag.unique_id
            = none := by
          rw [hr]
          simp only [greedyPair]
          rw [hsel]
          rw [greedyPair_lookup_none tasks post _ _ _ hag_post]
          exact hs1none
        rw [hlook] at htid
        exact absurd htid (by simp)
      · intro tid htid
        have hlook : dlookup (greedy_assignment (pre ++ ag :: post) tasks) ag.unique_id
            = some bt.task_id := by
          rw [hr]
          simp only [greedyPair]
          rw [hsel]
          rw [greedyPair_lookup_none tasks post _ _ _ hag_post]
          exact dlookup_dinsert_self _ _ _
        rw [hlook] at htid
        have htid' : bt.task_id = tid := by injection htid
        obtain ⟨pre', post', hts, helig, hbd, hpre', hpost'⟩ :=
          selectLoop_some ag.pos (greedyPair tasks pre [] []).2 tasks bt bd hsel
        refine ⟨bt, pre', post', hts, htid'.symm, helig.1, helig.2, ?_, ?_⟩
        · intro tk htk he
          have := hpre' tk htk ⟨he.1, he.2⟩
          rw [hbd] at this
          exact this
        · intro tk htk he
          have := hpost' tk htk ⟨he.1, he.2⟩
          rw [hbd] at this
          exact this

/-- C10 (witness): the amended theorem applied to one agent at (0,0) with
two eligible equal-distance tasks listed as ids 5 then 2; the values of the
result are distinct. -/
theorem claim_C10_witness :
    (([⟨0, (0, 0)⟩] : List AgentPos).map fun a => a.unique_id).Nodup ∧
      ((greedy_assignment [⟨0, (0, 0)⟩]
        [⟨5, (1, 0), false⟩, ⟨2, (0, 1), false⟩]).map Prod.snd).Nodup :=
  ⟨by decide,
    (claim_C10_amended [⟨0, (0, 0)⟩] [⟨5, (1, 0), false⟩, ⟨2, (0, 1), false⟩]
      (by decide)).1⟩

/-! ### Specification-side conflict predicates (the claim's reading: every
position past a path's end is the path's last position) -/

theorem posAt_ge (p : Path) (t : Nat) (h : p.length ≤ t) : posAt p t = p.getLastD dm := by
  unfold posAt
  rw [if_neg (by omega)]

theorem c5_no_conflict : ∀ t, ¬ specVC c5paths t ∧ ¬ specEC c5paths t := by
  have hstable : ∀ pr ∈ c5paths, ∀ t, 4 ≤ t → posAt pr.2 t = posAt pr.2 4 := by
    intro pr hpr t ht
    fin_cases hpr
    · rw [posAt_ge _ _ (by simp; omega), posAt_ge _ _ (by simp)]
    · rw [posAt_ge _ _ (by simp; omega), posAt_ge _ _ (by simp)]
    · by_cases ht4 : t = 4
      · rw [ht4]
      · rw [posAt_ge _ _ (by simp; omega)]
        decide
  intro t
  by_cases ht : t < 6
  · interval_cases t <;> exact ⟨by decide, by decide⟩
  · constructor
    · rintro ⟨i, j, hij, heq⟩
      rw [hstable (c5paths.get i) (c5paths.get_mem i i.isLt) t (by omega),
        hstable (c5paths.get j) (c5paths.get_mem j j.isLt) t (by omega)] at heq
      exact absurd ⟨i, j, hij, heq⟩ (by decide : ¬ specVC c5paths 4)
    · rintro ⟨i, j, hij, _, _, h3⟩
      apply h3
      show posAt (c5paths.get i).2 (t - 1) = posAt (c5paths.get i).2 t
      rw [hstable (c5paths.get i) (c5paths.get_mem i i.isLt) (t - 1) (by omega),
        hstable (c5paths.get i) (c5paths.get_mem i i.isLt) t (by omega)]

/-- C5: on `c5paths` no vertex conflict and no swap exists at any time under
the claim's padding rule (all three agents occupy pairwise-distinct cells at
every time, and from their final cells they never move), yet
`detect_first_conflict` returns an edge conflict at `t = 4` whose `u` is the
START cell of agent 0's long-finished path: for an exhausted path the code
computes the transition source as `p[0]` instead of the last position, so two
parked agents that once traded places are reported as swapping forever. -/
theorem claim_C5_bug :
    detect_first_conflict c5paths = some (Conflict.edge 4 0 1 (0, 0) (1, 0)) ∧
      ∀ t, decide (specVC c5paths t) = false ∧ decide (specEC c5paths t) = false :=
  ⟨by decide, fun t =>
    ⟨decide_eq_false_iff_not.mpr (c5_no_conflict t).1,
      decide_eq_false_iff_not.mpr (c5_no_conflict t).2⟩⟩

end MAPF
